import Mathlib

/-!
# Verification of the Contract-AI text pipeline

Shallow embedding of the text-processing core of the repository:

* `src/lib/ai-analysis.ts` — `findTextPosition`, `fuzzyFindPosition`,
  `mapChangesToDocument`, `parseAIResponse`, `buildAnalysisPrompt`;
* `src/lib/document-processor.ts` — `htmlToLexical`, `textToLexical`,
  `lexicalToText`, `extractKeyTerms`.

JavaScript strings are modelled as `List Char`, JSON numbers as `ℚ`,
nullable / optional fields as `Option`, and thrown exceptions as
`Except String`.  Each definition is a direct transcription of the
corresponding TypeScript function.
-/

/-- The JavaScript whitespace class (`\s`, also the set removed by
`String.prototype.trim`), by code point. -/
def jsWs (c : Char) : Bool :=
  c.toNat = 0x20 || c.toNat = 0x09 || c.toNat = 0x0a || c.toNat = 0x0b ||
  c.toNat = 0x0c || c.toNat = 0x0d || c.toNat = 0xa0 || c.toNat = 0x1680 ||
  (0x2000 ≤ c.toNat && c.toNat ≤ 0x200a) || c.toNat = 0x2028 ||
  c.toNat = 0x2029 || c.toNat = 0x202f || c.toNat = 0x205f ||
  c.toNat = 0x3000 || c.toNat = 0xfeff

/-- Scanner for `String.prototype.replace(/\s+/g, ' ')`; the flag records
whether the previous character was whitespace (i.e. whether we are inside a
run that has already emitted its single space). -/
def collapseGo : Bool → List Char → List Char
  | _, [] => []
  | prevWs, c :: rest =>
    if jsWs c then
      if prevWs then collapseGo true rest
      else ' ' :: collapseGo true rest
    else c :: collapseGo false rest

/-- `String.prototype.replace(/\s+/g, ' ')`: every maximal whitespace run
becomes a single space. -/
def collapseWs (l : List Char) : List Char :=
  collapseGo false l

/-- `String.prototype.trim()`. -/
def jsTrim (l : List Char) : List Char :=
  ((l.dropWhile jsWs).reverse.dropWhile jsWs).reverse

/-- `normalizeText` from `fuzzyFindPosition` (ai-analysis.ts:306):
`text.toLowerCase().replace(/\s+/g, ' ').trim()`. -/
def normalizeText (l : List Char) : List Char :=
  jsTrim (collapseWs (l.map Char.toLower))

/-- `String.prototype.indexOf`: index of the first occurrence of `needle`,
`none` for JavaScript's `-1`. -/
def firstIdxOf (needle : List Char) : List Char → Option Nat
  | [] => if needle = [] then some 0 else none
  | c :: rest =>
    if needle.isPrefixOf (c :: rest) then some 0
    else (firstIdxOf needle rest).map (· + 1)

/-- The `TextPosition` interface (ai-analysis.ts:41).  The `line` and
`column` fields are optional and only set on a successful lookup. -/
structure TextPosition where
  start : Nat
  «end» : Nat
  line : Option Nat
  column : Option Nat
deriving DecidableEq, Repr

/-- The back-mapping `while` loop of `fuzzyFindPosition`
(ai-analysis.ts:319-327), transcribed structurally: the list argument is
`fullText.drop originalIndex`, so the guard `originalIndex < fullText.length`
is the non-emptiness of the list. -/
def backMapGo (idx : Nat) : List Char → Nat → Nat → Nat
  | [], oIdx, _ => oIdx
  | c :: rest, oIdx, nIdx =>
    if nIdx < idx then
      backMapGo idx rest (oIdx + 1) (nIdx + (normalizeText [c]).length)
    else oIdx

/-- The same loop with an explicit fuel bound on the number of iterations;
`none` means the fuel ran out before the loop condition failed. -/
def backMapFuel (idx : Nat) : Nat → List Char → Nat → Nat → Option Nat
  | _, [], oIdx, _ => some oIdx
  | 0, _ :: _, oIdx, nIdx =>
    if nIdx < idx then none else some oIdx
  | fuel + 1, c :: rest, oIdx, nIdx =>
    if nIdx < idx then
      backMapFuel idx fuel rest (oIdx + 1) (nIdx + (normalizeText [c]).length)
    else some oIdx

/-- `fuzzyFindPosition` (ai-analysis.ts:304-333); `none` models `-1`. -/
def fuzzyFindPosition (searchText fullText : List Char) : Option Nat :=
  match firstIdxOf (normalizeText searchText) (normalizeText fullText) with
  | some index => some (backMapGo index fullText 0 0)
  | none => none

/-- `findTextPosition` (ai-analysis.ts:269-302). -/
def findTextPosition (searchText fullText : List Char) : TextPosition :=
  if searchText = [] then { start := 0, «end» := 0, line := none, column := none }
  else
    match (firstIdxOf searchText fullText).orElse
        (fun _ => fuzzyFindPosition searchText fullText) with
    | none => { start := 0, «end» := 0, line := none, column := none }
    | some index =>
      let beforeText := fullText.take index
      let lines := beforeText.splitOn '\n'
      { start := index
        «end» := index + searchText.length
        line := some lines.length
        column := some ((lines.getLastD []).length + 1) }

/-- The `type` field of a suggested change (ai-analysis.ts:16). -/
inductive ChangeType
  | REPLACEMENT | INSERTION | DELETION | HIGHLIGHT
deriving DecidableEq, Repr

/-- The `severity` field of a suggested change (ai-analysis.ts:20). -/
inductive ChangeSeverity
  | CRITICAL | HIGH | MEDIUM | LOW
deriving DecidableEq, Repr

/-- `Omit<SuggestedChange, 'position'>`: a suggested change as returned by
`parseAIResponse`, before a position is attached. -/
structure SuggestedChangeIn where
  type : ChangeType
  originalText : Option (List Char)
  suggestedText : Option (List Char)
  reason : List Char
  severity : ChangeSeverity
  ruleId : Option (List Char)
  confidence : ℚ
deriving DecidableEq, Repr

/-- The `SuggestedChange` interface (ai-analysis.ts:15-24). -/
structure SuggestedChange extends SuggestedChangeIn where
  position : TextPosition
deriving DecidableEq, Repr

/-- `mapChangesToDocument` (ai-analysis.ts:252-267): attach
`findTextPosition(change.originalText || '', contractContent)` to every
change. -/
def mapChangesToDocument (changes : List SuggestedChangeIn)
    (contractContent : List Char) : List SuggestedChange :=
  changes.map fun change =>
    { toSuggestedChangeIn := change
      position := findTextPosition (change.originalText.getD []) contractContent }

/-- The `string | number` type of the `format` field of a Lexical node. -/
inductive StrOrNum
  | str (s : List Char)
  | num (n : Int)
deriving DecidableEq, Repr

/-- The `LexicalNode` interface (document-processor.ts:15-26); fields in
declaration order `children, direction, format, indent, type, version,
text, detail, mode, style`, optional ones as `Option`. -/
inductive LexicalNode where
  | mk (children : Option (List LexicalNode)) (direction : Option (List Char))
      (format : Option StrOrNum) (indent : Option Int) (type : List Char)
      (version : Option Int) (text : Option (List Char)) (detail : Option Int)
      (mode : Option (List Char)) (style : Option (List Char))

/-- The `children` field. -/
def LexicalNode.children : LexicalNode → Option (List LexicalNode)
  | .mk c _ _ _ _ _ _ _ _ _ => c

/-- The `type` field. -/
def LexicalNode.type : LexicalNode → List Char
  | .mk _ _ _ _ ty _ _ _ _ _ => ty

/-- The `text` field. -/
def LexicalNode.text : LexicalNode → Option (List Char)
  | .mk _ _ _ _ _ _ tx _ _ _ => tx

/-- The `root` object of a `LexicalState` (document-processor.ts:4-13). -/
structure LexicalRoot where
  children : List LexicalNode
  direction : List Char
  format : List Char
  indent : Int
  type : List Char
  version : Int

/-- The `LexicalState` interface (document-processor.ts:4). -/
structure LexicalState where
  root : LexicalRoot

/-- The text node literal built by `htmlToLexical` and `textToLexical`
(document-processor.ts:162-170 and 196-204). -/
def textNodeOf (t : List Char) : LexicalNode :=
  LexicalNode.mk none none (some (StrOrNum.num 0)) none ['t', 'e', 'x', 't']
    (some 1) (some t) (some 0) (some ['n', 'o', 'r', 'm', 'a', 'l']) (some [])

/-- The paragraph node literal built by `htmlToLexical` and `textToLexical`
(document-processor.ts:160-177 and 194-211). -/
def paragraphNodeOf (t : List Char) : LexicalNode :=
  LexicalNode.mk (some [textNodeOf t]) (some ['l', 't', 'r'])
    (some (StrOrNum.str [])) (some 0)
    ['p', 'a', 'r', 'a', 'g', 'r', 'a', 'p', 'h'] (some 1) none none none none

/-- `html.replace(/<[^>]*>/g, '')` (document-processor.ts:154): delete every
substring running from a `'<'` to the next `'>'` (`rest.dropWhile (· ≠ '>')`
is the remainder of the input from the next `'>'` on); a `'<'` with no later
`'>'` never matches the regex and is kept. -/
def stripHtmlTags : List Char → List Char
  | [] => []
  | c :: rest =>
    if c = '<' then
      if h : (rest.dropWhile fun x => x ≠ '>') = [] then c :: rest
      else stripHtmlTags (rest.dropWhile fun x => x ≠ '>').tail
    else c :: stripHtmlTags rest
termination_by l => l.length
decreasing_by
  · simp only [List.length_cons]
    have h1 : (rest.dropWhile fun x => x ≠ '>').length ≤ rest.length :=
      (List.dropWhile_suffix fun x => x ≠ '>').length_le
    have h2 : 0 < (rest.dropWhile fun x => x ≠ '>').length :=
      List.length_pos.mpr h
    simp only [List.length_tail]
    omega
  · simp

/-- `htmlToLexical` (document-processor.ts:148-188). -/
def htmlToLexical (html : List Char) : LexicalState :=
  let textContent := stripHtmlTags html
  { root :=
      { children := [paragraphNodeOf textContent]
        direction := ['l', 't', 'r']
        format := []
        indent := 0
        type := ['r', 'o', 'o', 't']
        version := 1 } }

/-- `text.split('\n\n')` (document-processor.ts:192): split at each
non-overlapping occurrence of two consecutive newlines, left to right. -/
def splitNN : List Char → List (List Char)
  | [] => [[]]
  | [c] => [[c]]
  | c :: c2 :: rest =>
    if c = '\n' ∧ c2 = '\n' then [] :: splitNN rest
    else
      match splitNN (c2 :: rest) with
      | [] => [[c]]
      | p :: ps => (c :: p) :: ps

/-- `Array.prototype.join('\n\n')` (document-processor.ts:256). -/
def joinNN : List (List Char) → List Char
  | [] => []
  | [p] => p
  | p :: ps => p ++ '\n' :: '\n' :: joinNN ps

/-- Does the list contain two consecutive newlines (an occurrence of the
separator `"\n\n"`)? -/
def hasNN : List Char → Bool
  | [] => false
  | [_] => false
  | c :: c2 :: rest => (c = '\n' && c2 = '\n') || hasNN (c2 :: rest)

/-- `textToLexical` (document-processor.ts:190-223). -/
def textToLexical (text : List Char) : LexicalState :=
  let paragraphs := (splitNN text).filter fun p => jsTrim p ≠ []
  { root :=
      { children := paragraphs.map fun paragraph => paragraphNodeOf (jsTrim paragraph)
        direction := ['l', 't', 'r']
        format := []
        indent := 0
        type := ['r', 'o', 'o', 't']
        version := 1 } }

mutual

/-- The recursive `extractText` helper of `lexicalToText`
(document-processor.ts:242-252). -/
def extractText : LexicalNode → List Char
  | .mk children _ _ _ ty _ tx _ _ _ =>
    if ty = ['t', 'e', 'x', 't'] then tx.getD []
    else
      match children with
      | some cs => extractTextList cs
      | none => []

/-- `node.children.map(extractText).join('')`. -/
def extractTextList : List LexicalNode → List Char
  | [] => []
  | n :: ns => extractText n ++ extractTextList ns

end

/-- `lexicalToText` (document-processor.ts:237-257). -/
def lexicalToText (state : LexicalState) : List Char :=
  joinNN (state.root.children.map extractText)

/-- A JSON value as produced by `JSON.parse`.  Numbers are rationals: JSON
numeric literals are finite decimals, so `JSON.parse` never produces `NaN`
or infinities. -/
inductive JsonValue where
  | null
  | bool (b : Bool)
  | num (q : ℚ)
  | str (s : List Char)
  | arr (xs : List JsonValue)
  | obj (fields : List (List Char × JsonValue))

/-- JavaScript truthiness of a parsed-JSON value (arrays and objects are
always truthy, `0`, `""`, `null` and `false` are falsy). -/
def truthy : JsonValue → Bool
  | .null => false
  | .bool b => b
  | .num q => q ≠ 0
  | .str s => s ≠ []
  | .arr _ => true
  | .obj _ => true

/-- Property lookup on parsed JSON with duplicate keys resolved as
`JSON.parse` does (the last one wins). -/
def lookupLast (k : List Char) : List (List Char × JsonValue) → Option JsonValue
  | [] => none
  | (k', v) :: rest =>
    match lookupLast k rest with
    | some r => some r
    | none => if k' = k then some v else none

/-- JavaScript property access `j[k]` on a parsed-JSON value: `none`
(`undefined`) unless `j` is an object with the key. -/
def getField (j : JsonValue) (k : List Char) : Option JsonValue :=
  match j with
  | .obj fields => lookupLast k fields
  | _ => none

/-- `x || d` for a possibly absent JavaScript value `x`. -/
def jsOr (x : Option JsonValue) (d : JsonValue) : JsonValue :=
  match x with
  | some v => if truthy v then v else d
  | none => d

/-- Value of a non-empty all-digit string. -/
def digitsToNat (l : List Char) : Nat :=
  l.foldl (fun a c => a * 10 + (c.toNat - 48)) 0

/-- An unsigned decimal numeral, integer part and optional fraction. -/
def decToRat? (l : List Char) : Option ℚ :=
  let ip := l.takeWhile Char.isDigit
  match l.dropWhile Char.isDigit with
  | [] => if ip = [] then none else some (digitsToNat ip)
  | '.' :: fp =>
    if (ip ≠ [] || fp ≠ []) && fp.all Char.isDigit then
      some ((digitsToNat ip : ℚ) + (digitsToNat fp : ℚ) / (10 ^ fp.length))
    else none
  | _ => none

/-- `ToNumber` on a string: trimmed-empty is `0`, else an optionally signed
decimal numeral; other forms (exponents, hex, …) are modelled as `NaN`
(`none`).  No claim depends on the unmodelled forms. -/
def jsStrToNum (s : List Char) : Option ℚ :=
  let t := jsTrim s
  if t = [] then some 0
  else
    match t with
    | '-' :: r => (decToRat? r).map fun q => -q
    | '+' :: r => decToRat? r
    | _ => decToRat? t

/-- JavaScript `ToNumber` on a parsed-JSON value, as applied by `Math.min`;
`none` models `NaN`.  Array/object coercion goes through `toString` in
JavaScript; it is modelled here only for the empty and singleton-number
array (no claim depends on the others). -/
def toNumber : JsonValue → Option ℚ
  | .null => some 0
  | .bool b => some (if b then 1 else 0)
  | .num q => some q
  | .str s => jsStrToNum s
  | .arr [] => some 0
  | .arr [.num q] => some q
  | .arr _ => none
  | .obj _ => none

/-- `Math.max(0, Math.min(10, ·))`; `NaN` (`none`) propagates through both
`Math.min` and `Math.max`. -/
def clamp10 : Option ℚ → Option ℚ
  | none => none
  | some q => some (max 0 (min 10 q))

/-- The validated and normalized analysis object that `parseAIResponse`
returns (summary and the four list fields keep their parsed JSON values). -/
structure AnalysisResult where
  summary : JsonValue
  riskScore : ℚ
  complianceScore : Option ℚ
  changes : JsonValue
  missingClauses : JsonValue
  risks : JsonValue
  keyTerms : JsonValue

/-- Field name `"summary"`. -/
def summaryKey : List Char := "summary".data

/-- Field name `"riskScore"`. -/
def riskScoreKey : List Char := "riskScore".data

/-- Field name `"complianceScore"`. -/
def complianceScoreKey : List Char := "complianceScore".data

/-- Field name `"changes"`. -/
def changesKey : List Char := "changes".data

/-- Field name `"missingClauses"`. -/
def missingClausesKey : List Char := "missingClauses".data

/-- Field name `"risks"`. -/
def risksKey : List Char := "risks".data

/-- Field name `"keyTerms"`. -/
def keyTermsKey : List Char := "keyTerms".data

/-- The error message of ai-analysis.ts:223. -/
def noJsonMsg : List Char := "No JSON found in AI response".data

/-- The error reported when `JSON.parse` itself throws. -/
def jsonParseFailMsg : List Char := "Failed to parse AI response".data

/-- The error message of ai-analysis.ts:230. -/
def invalidMsg : List Char := "Invalid analysis structure".data

/-- Lines 228-243 of `parseAIResponse`: validate the required fields, then
default the array fields and normalize the scores.  `throw` on a falsy
`summary` or a non-number `riskScore`. -/
def validateAnalysis (j : JsonValue) : Except (List Char) AnalysisResult :=
  match getField j summaryKey, getField j riskScoreKey with
  | some s, some (.num q) =>
    if truthy s then
      Except.ok
        { summary := s
          riskScore := max 0 (min 10 q)
          complianceScore :=
            clamp10 (toNumber (jsOr (getField j complianceScoreKey) (.num 5)))
          changes := jsOr (getField j changesKey) (.arr [])
          missingClauses := jsOr (getField j missingClausesKey) (.arr [])
          risks := jsOr (getField j risksKey) (.arr [])
          keyTerms := jsOr (getField j keyTermsKey) (.arr []) }
    else Except.error invalidMsg
  | _, _ => Except.error invalidMsg

/-- The regex extraction `responseText.match(/\{[\s\S]*\}/)` of
ai-analysis.ts:221: the match runs from the first `'{'` that has a later
`'}'` through the last `'}'` of the text; `none` when the regex does not
match. -/
def jsonMatchR (text : List Char) : Option (List Char) :=
  match text.dropWhile fun c => c ≠ '{' with
  | [] => none
  | c :: rest =>
    if (rest.reverse.dropWhile fun x => x ≠ '}') = [] then none
    else some (c :: (rest.reverse.dropWhile fun x => x ≠ '}').reverse)

/-- `parseAIResponse` (ai-analysis.ts:218-250), parameterized by the
JavaScript library function `JSON.parse` (`none` models a parse exception):
extract the JSON text by regex, parse it, validate and normalize. -/
def parseAIResponse (jsonParse : List Char → Option JsonValue)
    (responseText : List Char) : Except (List Char) AnalysisResult :=
  match jsonMatchR responseText with
  | none => Except.error noJsonMsg
  | some jsonText =>
    match jsonParse jsonText with
    | none => Except.error jsonParseFailMsg
    | some j => validateAnalysis j

/-- The Prisma `RuleSeverity` enum; the five values are the keys of the
`severityOrder` map (ai-analysis.ts:189). -/
inductive RuleSeverity
  | CRITICAL | HIGH | MEDIUM | LOW | INFO
deriving DecidableEq, Repr

/-- The `severityOrder` map `{CRITICAL: 0, HIGH: 1, MEDIUM: 2, LOW: 3,
INFO: 4}` (ai-analysis.ts:189). -/
def severityOrder : RuleSeverity → Nat
  | .CRITICAL => 0
  | .HIGH => 1
  | .MEDIUM => 2
  | .LOW => 3
  | .INFO => 4

/-- The severity as interpolated into the prompt. -/
def RuleSeverity.toChars : RuleSeverity → List Char
  | .CRITICAL => "CRITICAL".data
  | .HIGH => "HIGH".data
  | .MEDIUM => "MEDIUM".data
  | .LOW => "LOW".data
  | .INFO => "INFO".data

/-- The fields of a Prisma `Rule` row that `buildAnalysisPrompt` uses. -/
structure Rule where
  id : List Char
  name : List Char
  type : List Char
  severity : RuleSeverity
  aiPrompt : List Char
  orderIndex : Int
  isActive : Bool
  preferredLanguage : Option (List Char)
deriving DecidableEq, Repr

/-- The fields of a Prisma `Playbook` row (with its included rules) that
`buildAnalysisPrompt` uses. -/
structure Playbook where
  name : List Char
  description : Option (List Char)
  contractType : Option (List Char)
  rules : List Rule
deriving DecidableEq, Repr

/-- The sort comparator of ai-analysis.ts:188-192, as the `≤`-test "the
comparator of `a, b` is non-positive": severities in `severityOrder`
order, ties broken by `orderIndex`. -/
def ruleLE (a b : Rule) : Bool :=
  severityOrder a.severity < severityOrder b.severity ||
  (severityOrder a.severity = severityOrder b.severity &&
    a.orderIndex ≤ b.orderIndex)

/-- `playbook.rules.filter(r => r.isActive).sort(comparator)`
(ai-analysis.ts:186-192); `Array.prototype.sort` is a stable sort ordered
by the comparator. -/
def sortedRulesOf (playbook : Playbook) : List Rule :=
  (playbook.rules.filter fun r => r.isActive).mergeSort ruleLE

/-- One rule's block of the prompt (ai-analysis.ts:194-204). -/
def ruleBlock (idx : Nat) (rule : Rule) : List Char :=
  "**Rule ".data ++ (toString idx).data ++ ": ".data ++ rule.name ++
  "** (ID: ".data ++ rule.id ++ ")\n".data ++
  "Type: ".data ++ rule.type ++ "\n".data ++
  "Severity: ".data ++ rule.severity.toChars ++ "\n".data ++
  "Instructions: ".data ++ rule.aiPrompt ++ "\n".data ++
  (match rule.preferredLanguage with
   | some pl =>
     if pl ≠ [] then "Preferred Language/Format:\n".data ++ pl ++ "\n".data
     else []
   | none => []) ++
  "\n".data

/-- The `forEach` loop of ai-analysis.ts:194-204: the rule blocks in order,
numbered from 1. -/
def rulesSection (rules : List Rule) : List Char :=
  (rules.enum.map fun p => ruleBlock (p.1 + 1) p.2).flatten

/-- The fixed trailer of the prompt (ai-analysis.ts:206-213). -/
def analysisInstructions : List Char :=
  "\n**ANALYSIS INSTRUCTIONS:**\n".data ++
  "1. Review the contract against each active rule\n".data ++
  "2. Identify specific text that violates or could improve compliance\n".data ++
  "3. Provide exact replacement text following legal best practices\n".data ++
  "4. Calculate risk score (0-10) considering: liability, enforceability, compliance gaps\n".data ++
  "5. Calculate compliance score (0-10) for GDPR, SOC2, and industry standards\n".data ++
  "6. Extract key terms and identify missing critical provisions\n\n".data ++
  "Analyze thoroughly and provide specific, actionable recommendations.".data

/-- `buildAnalysisPrompt` (ai-analysis.ts:170-216). -/
def buildAnalysisPrompt (contractContent : List Char) (playbook : Playbook) :
    List Char :=
  "**CONTRACT TO ANALYZE:**\n\n".data ++ contractContent ++ "\n\n".data ++
  "**PLAYBOOK: ".data ++ playbook.name ++ "**\n".data ++
  (match playbook.description with
   | some d => if d ≠ [] then "Description: ".data ++ d ++ "\n".data else []
   | none => []) ++
  (match playbook.contractType with
   | some ct => if ct ≠ [] then "Contract Type: ".data ++ ct ++ "\n".data
     else []
   | none => []) ++
  "\n**REVIEW RULES:**\n\n".data ++
  rulesSection (sortedRulesOf playbook) ++
  analysisInstructions

/-- The regex class `[A-Z]` (ASCII, code points 65-90). -/
def isUpperAZ (c : Char) : Bool :=
  65 ≤ c.toNat && c.toNat ≤ 90

/-- The regex class `[a-z]` (ASCII, code points 97-122). -/
def isLowerAZ (c : Char) : Bool :=
  97 ≤ c.toNat && c.toNat ≤ 122

/-- The regex class `\w` = `[A-Za-z0-9_]`, which defines `\b`. -/
def isWordChar (c : Char) : Bool :=
  isUpperAZ c || isLowerAZ c || (48 ≤ c.toNat && c.toNat ≤ 57) ||
  c.toNat = 95

/-- Is the head a word character (`false` at the end of input)? -/
def headIsWord : List Char → Bool
  | [] => false
  | c :: _ => isWordChar c

/-- One attempt of `/"([^"]+)"\s+(?:means|shall mean)/` just after an
opening `'"'`: the non-empty capture up to the next `'"'`, then one or more
whitespace characters (greedy — both literals start with a non-whitespace
character, so no shorter run can match), then one of the literals.  On
success returns the capture and the remainder after the full match. -/
def quoteMatch (rest : List Char) : Option (List Char × List Char) :=
  let cap := rest.takeWhile fun c => c ≠ '"'
  let after := (rest.dropWhile fun c => c ≠ '"').tail
  if (rest.dropWhile fun c => c ≠ '"') = [] then none
  else if cap = [] then none
  else if (after.takeWhile jsWs) = [] then none
  else if ("means".data).isPrefixOf (after.dropWhile jsWs) then
    some (cap, (after.dropWhile jsWs).drop 5)
  else if ("shall mean".data).isPrefixOf (after.dropWhile jsWs) then
    some (cap, (after.dropWhile jsWs).drop 10)
  else none

/-- The `exec` loop over `definedTermsPattern` (document-processor.ts:
372-376): scan left to right, emit each capture, continue after the match.
Every iteration consumes at least one character, so a fuel of the input
length never runs out. -/
def definedTermsGo : Nat → List Char → List (List Char)
  | _, [] => []
  | 0, _ :: _ => []
  | fuel + 1, c :: rest =>
    if c = '"' then
      match quoteMatch rest with
      | some (cap, after) => cap :: definedTermsGo fuel after
      | none => definedTermsGo fuel rest
    else definedTermsGo fuel rest

/-- All captures of `/"([^"]+)"\s+(?:means|shall mean)/g` over the
content. -/
def definedTerms (content : List Char) : List (List Char) :=
  definedTermsGo content.length content

/-- One `(?:\s+[A-Z][a-z]+)` group: greedy whitespace (both following
atoms reject whitespace, so no shorter run can match), an uppercase letter
and a non-empty greedy lowercase run.  Returns the group text and the
remainder. -/
def phraseGroup (l : List Char) : Option (List Char × List Char) :=
  if (l.takeWhile jsWs) = [] then none
  else if (l.dropWhile jsWs) = [] then none
  else if isUpperAZ (l.dropWhile jsWs).headI &&
      ((l.dropWhile jsWs).tail.takeWhile isLowerAZ) ≠ [] then
    some ((l.takeWhile jsWs) ++ (l.dropWhile jsWs).headI ::
        (l.dropWhile jsWs).tail.takeWhile isLowerAZ,
      (l.dropWhile jsWs).tail.dropWhile isLowerAZ)
  else none

/-- Greedy `(?:\s+[A-Z][a-z]+)*` with the final `\b`: take groups as long
as possible; if the character right after the last group is a word
character the trailing `\b` fails there, and the regex backtracks by
dropping that one group (the boundary then sits before the whitespace that
began it, which always succeeds).  Returns the matched extension and the
remainder. -/
def phraseExtendF : Nat → List Char → List Char × List Char
  | 0, l => ([], l)
  | fuel + 1, l =>
    match phraseGroup l with
    | none => ([], l)
    | some (g, rest) =>
      match phraseExtendF fuel rest with
      | ([], _) => if headIsWord rest then ([], l) else (g, rest)
      | (ext2, rest2) => (g ++ ext2, rest2)

/-- One attempt of `/\b[A-Z][a-z]+(?:\s+[A-Z][a-z]+)*\b/` at the current
position (the caller checks the leading `\b`): uppercase letter, non-empty
lowercase run, greedy groups, final `\b`.  Shortening a lowercase run
cannot satisfy a failed `\b` (the next character would be a lowercase
letter), so the only backtracking is the group drop in `phraseExtendF`. -/
def phraseMatch : List Char → Option (List Char × List Char)
  | [] => none
  | u :: t =>
    if isUpperAZ u then
      if (t.takeWhile isLowerAZ) = [] then none
      else
        match phraseExtendF (t.dropWhile isLowerAZ).length
            (t.dropWhile isLowerAZ) with
        | ([], _) =>
          if headIsWord (t.dropWhile isLowerAZ) then none
          else some (u :: t.takeWhile isLowerAZ, t.dropWhile isLowerAZ)
        | (ext, rest2) => some (u :: t.takeWhile isLowerAZ ++ ext, rest2)
    else none

/-- `content.match(/\b[A-Z][a-z]+(?:\s+[A-Z][a-z]+)*\b/g)`: scan left to
right; `prevWord` records whether the previous character is a word
character (if so the leading `\b` fails at this position).  Every
iteration consumes at least one character, so a fuel of the input length
never runs out. -/
def capMatchesGo : Nat → Bool → List Char → List (List Char)
  | _, _, [] => []
  | 0, _, _ :: _ => []
  | fuel + 1, prevWord, c :: rest =>
    if prevWord then capMatchesGo fuel (isWordChar c) rest
    else
      match phraseMatch (c :: rest) with
      | some (m, rest2) => m :: capMatchesGo fuel true rest2
      | none => capMatchesGo fuel (isWordChar c) rest

/-- All matches of the capitalized-terms regex over the content
(document-processor.ts:379). -/
def capMatches (content : List Char) : List (List Char) :=
  capMatchesGo content.length false content

/-- `[...new Set(xs)]` with the set of already-seen elements made
explicit: keep each element the first time it appears. -/
def dedupFirstAux (seen : List (List Char)) : List (List Char) → List (List Char)
  | [] => []
  | x :: xs =>
    if x ∈ seen then dedupFirstAux seen xs
    else x :: dedupFirstAux (x :: seen) xs

/-- `[...new Set(xs)]`: deduplication keeping first occurrences, in
JavaScript `Set` iteration order. -/
def dedupFirst (xs : List (List Char)) : List (List Char) :=
  dedupFirstAux [] xs

/-- The `termCounts` stage (document-processor.ts:380-392): count the
matches longer than 3 characters; `Object.entries` iterates the keys in
first-insertion order; keep those with count at least 3. -/
def repeatedTerms (content : List Char) : List (List Char) :=
  (dedupFirst ((capMatches content).filter fun t => 3 < t.length)).filter
    fun t => 3 ≤ ((capMatches content).filter fun u => 3 < u.length).count t

/-- `extractKeyTerms` (document-processor.ts:367-395). -/
def extractKeyTerms (content : List Char) : List (List Char) :=
  (dedupFirst (definedTerms content ++ repeatedTerms content)).take 20

mutual

/-- Acceptor for `[A-Z][a-z]+(?:\s+[A-Z][a-z]+)*` starting at the
lowercase run (after an uppercase letter). -/
def capLowerRun : List Char → Bool
  | [] => false
  | c :: rest => if isLowerAZ c then capAfterLower rest else false

/-- After at least one lowercase letter: more lowercase, the end, or a
whitespace run leading to the next word. -/
def capAfterLower : List Char → Bool
  | [] => true
  | c :: rest =>
    if isLowerAZ c then capAfterLower rest
    else if jsWs c then capWsRun rest
    else false

/-- Inside the `\s+` of a group: more whitespace or the next uppercase
letter. -/
def capWsRun : List Char → Bool
  | [] => false
  | c :: rest =>
    if jsWs c then capWsRun rest
    else if isUpperAZ c then capLowerRun rest
    else false

end

/-- Spec-side reading of "a capitalized phrase": an uppercase letter, one
or more lowercase letters, then zero or more groups of whitespace followed
by another capitalized word. -/
def capPhraseShape : List Char → Bool
  | [] => false
  | u :: rest => isUpperAZ u && capLowerRun rest

/-- Spec-side reading of "a quoted term followed by means or shall mean":
the content contains `"t"` (with `t` non-empty and quote-free) followed by
whitespace and one of the two literals. -/
def quotedDefinedTerm (t content : List Char) : Prop :=
  t ≠ [] ∧ (∀ c ∈ t, c ≠ '"') ∧
  ∃ pre ws lit post, ws ≠ [] ∧ (∀ c ∈ ws, jsWs c = true) ∧
    (lit = "means".data ∨ lit = "shall mean".data) ∧
    content = pre ++ '"' :: (t ++ '"' :: (ws ++ (lit ++ post)))

/-- Spec-side reading of "occurs at least `n` times": `n` pairwise disjoint
occurrences of `t`, left to right. -/
def OccursSeq (t : List Char) : Nat → List Char → Prop
  | 0, _ => True
  | n + 1, l => ∃ pre rest, l = pre ++ (t ++ rest) ∧ OccursSeq t n rest

/-- The matches `ms` appear in `l`, in order and pairwise disjoint. -/
def Interleaves : List Char → List (List Char) → Prop
  | _, [] => True
  | l, m :: ms => ∃ pre rest, l = pre ++ (m ++ rest) ∧ Interleaves rest ms

/-! ## Supporting lemmas -/

theorem jsWs_toLower (c : Char) : jsWs (Char.toLower c) = jsWs c := by
  by_cases h : c.toNat ≥ 65 ∧ c.toNat ≤ 90
  · have hv : (c.toNat + 32).isValidChar := Or.inl (by omega)
    have h1 : Char.toLower c = Char.ofNat (c.toNat + 32) := by
      simp [Char.toLower, h]
    have h2 : (Char.toLower c).toNat = c.toNat + 32 := by
      rw [h1]
      simp only [Char.ofNat, dif_pos hv]
      rfl
    have h3 : jsWs c = false := by
      simp only [jsWs, Bool.or_eq_false_iff, Bool.and_eq_false_iff,
        decide_eq_false_iff_not]
      omega
    have h4 : jsWs (Char.toLower c) = false := by
      simp only [jsWs, h2, Bool.or_eq_false_iff, Bool.and_eq_false_iff,
        decide_eq_false_iff_not]
      omega
    rw [h3, h4]
  · have h1 : Char.toLower c = c := by simp [Char.toLower, h]
    rw [h1]

theorem dropWhile_jsWs_eq_self {l : List Char} (h : ∀ c ∈ l, jsWs c = false) :
    l.dropWhile jsWs = l := by
  cases l with
  | nil => rfl
  | cons c rest => rw [List.dropWhile_cons, if_neg (by simp [h c (by simp)])]

theorem collapseGo_eq_self {l : List Char} (b : Bool)
    (h : ∀ c ∈ l, jsWs c = false) : collapseGo b l = l := by
  induction l generalizing b with
  | nil => rfl
  | cons c rest ih =>
    rw [collapseGo, if_neg (by simp [h c (by simp)])]
    rw [ih false fun x hx => h x (by simp [hx])]

theorem collapseWs_eq_self {l : List Char} (h : ∀ c ∈ l, jsWs c = false) :
    collapseWs l = l :=
  collapseGo_eq_self false h

theorem jsTrim_eq_self {l : List Char} (h : ∀ c ∈ l, jsWs c = false) :
    jsTrim l = l := by
  unfold jsTrim
  rw [dropWhile_jsWs_eq_self h,
    dropWhile_jsWs_eq_self (fun c hc => h c (by simpa using hc)),
    List.reverse_reverse]

theorem normalizeText_eq_map_toLower {l : List Char}
    (h : ∀ c ∈ l, jsWs c = false) :
    normalizeText l = l.map Char.toLower := by
  have h2 : ∀ c ∈ l.map Char.toLower, jsWs c = false := by
    intro c hc
    rcases List.mem_map.mp hc with ⟨a, ha, rfl⟩
    rw [jsWs_toLower]
    exact h a ha
  unfold normalizeText
  rw [collapseWs_eq_self h2, jsTrim_eq_self h2]

theorem normalizeText_single_nonws {c : Char} (h : jsWs c = false) :
    (normalizeText [c]).length = 1 := by
  rw [normalizeText_eq_map_toLower (by simpa using h)]
  rfl

theorem backMapGo_no_ws (idx : Nat) (l : List Char)
    (h : ∀ c ∈ l, jsWs c = false) (oIdx nIdx : Nat)
    (hbound : idx ≤ nIdx + l.length) :
    backMapGo idx l oIdx nIdx = oIdx + (idx - nIdx) := by
  induction l generalizing oIdx nIdx with
  | nil =>
    simp only [backMapGo]
    simp only [List.length_nil, Nat.add_zero] at hbound
    omega
  | cons c rest ih =>
    rw [backMapGo]
    by_cases hlt : nIdx < idx
    · rw [if_pos hlt, normalizeText_single_nonws (h c (by simp))]
      rw [ih (fun x hx => h x (by simp [hx])) (oIdx + 1) (nIdx + 1)
        (by simp at hbound ⊢; omega)]
      omega
    · rw [if_neg hlt]
      omega

theorem firstIdxOf_eq_some_iff (needle haystack : List Char) (i : Nat) :
    firstIdxOf needle haystack = some i ↔
      (needle <+: haystack.drop i ∧
        ∀ j, j < i → ¬ needle <+: haystack.drop j) := by
  induction haystack generalizing i with
  | nil =>
    simp only [firstIdxOf, List.drop_nil, List.prefix_nil]
    by_cases h : needle = []
    · subst h
      constructor
      · intro hi
        rw [if_pos rfl] at hi
        have h0 : i = 0 := by simpa using hi.symm
        subst h0
        exact ⟨rfl, by omega⟩
      · rintro ⟨-, h2⟩
        rw [if_pos rfl]
        rcases Nat.eq_zero_or_pos i with rfl | hpos
        · rfl
        · exact absurd rfl (h2 0 hpos)
    · rw [if_neg h]
      simp [h]
  | cons c rest ih =>
    by_cases hp : needle <+: c :: rest
    · have hb : needle.isPrefixOf (c :: rest) = true :=
        List.isPrefixOf_iff_prefix.mpr hp
      rw [firstIdxOf, if_pos hb]
      constructor
      · intro hi
        have : i = 0 := by simpa using hi.symm
        subst this
        exact ⟨by simpa using hp, by omega⟩
      · rintro ⟨h1, h2⟩
        rcases Nat.eq_zero_or_pos i with rfl | hpos
        · rfl
        · exact absurd (by simpa using hp) (h2 0 hpos)
    · have hb : needle.isPrefixOf (c :: rest) = false := by
        by_contra hc
        exact hp (List.isPrefixOf_iff_prefix.mp (by simpa using hc))
      rw [firstIdxOf, if_neg (by simp [hb])]
      cases i with
      | zero =>
        simp only [List.drop_zero]
        constructor
        · intro hi
          rcases Option.map_eq_some'.mp hi with ⟨a, -, ha⟩
          exact absurd ha (by omega)
        · rintro ⟨h1, -⟩
          exact absurd h1 hp
      | succ i' =>
        rw [List.drop_succ_cons]
        constructor
        · intro hi
          rcases Option.map_eq_some'.mp hi with ⟨a, ha, hai⟩
          have hai' : a = i' := by omega
          subst hai'
          rcases (ih a).mp ha with ⟨h1, h2⟩
          refine ⟨h1, ?_⟩
          intro j hj
          cases j with
          | zero => simpa using hp
          | succ j' =>
            rw [List.drop_succ_cons]
            exact h2 j' (by omega)
        · rintro ⟨h1, h2⟩
          have hrec : firstIdxOf needle rest = some i' := by
            refine (ih i').mpr ⟨h1, ?_⟩
            intro j hj
            have := h2 (j + 1) (by omega)
            rwa [List.drop_succ_cons] at this
          rw [hrec]
          rfl

theorem backMapFuel_eq (idx : Nat) (l : List Char) :
    ∀ fuel oIdx nIdx : Nat, l.length ≤ fuel →
      backMapFuel idx fuel l oIdx nIdx = some (backMapGo idx l oIdx nIdx) := by
  induction l with
  | nil =>
    intro fuel oIdx nIdx _
    cases fuel <;> rfl
  | cons c rest ih =>
    intro fuel oIdx nIdx h
    simp only [List.length_cons] at h
    obtain ⟨f, rfl⟩ : ∃ f, fuel = f + 1 := ⟨fuel - 1, by omega⟩
    rw [backMapFuel, backMapGo]
    by_cases hlt : nIdx < idx
    · rw [if_pos hlt, if_pos hlt]
      exact ih f (oIdx + 1) (nIdx + (normalizeText [c]).length) (by omega)
    · rw [if_neg hlt, if_neg hlt]

theorem firstIdxOf_le_length {needle hay : List Char} {i : Nat}
    (h : firstIdxOf needle hay = some i) : i ≤ hay.length := by
  induction hay generalizing i with
  | nil =>
    by_cases hne : needle = [] <;> simp [firstIdxOf, hne] at h
    omega
  | cons c rest ih =>
    rw [firstIdxOf] at h
    split at h
    · simp at h
      omega
    · rcases Option.map_eq_some'.mp h with ⟨a, ha, hai⟩
      have := ih ha
      simp only [List.length_cons]
      omega

/-! ## Claims about `findTextPosition` and `mapChangesToDocument` -/

/-- C1: for every suggested change whose `originalText` is non-empty and
occurs verbatim in the contract content, `mapChangesToDocument` assigns it a
position whose `start` is the index of the first exact occurrence of
`originalText` in the content and whose `end` is `start` plus the length of
`originalText`. -/
theorem mapChangesToDocument_exact (content : List Char)
    (changes : List SuggestedChangeIn) (k : Nat) (t : List Char) (i : Nat)
    (hk : k < changes.length)
    (hk' : k < (mapChangesToDocument changes content).length)
    (ht : (changes.get ⟨k, hk⟩).originalText = some t)
    (hne : t ≠ [])
    (hocc : t <+: content.drop i)
    (hfirst : ∀ j, j < i → ¬ t <+: content.drop j) :
    ((mapChangesToDocument changes content).get ⟨k, hk'⟩).position.start = i ∧
    ((mapChangesToDocument changes content).get ⟨k, hk'⟩).position.«end» =
      i + t.length := by
  have hfi : firstIdxOf t content = some i :=
    (firstIdxOf_eq_some_iff t content i).mpr ⟨hocc, hfirst⟩
  have hget : (mapChangesToDocument changes content).get ⟨k, hk'⟩ =
      { toSuggestedChangeIn := changes.get ⟨k, hk⟩
        position := findTextPosition
          (((changes.get ⟨k, hk⟩).originalText).getD []) content } := by
    simp [mapChangesToDocument]
  rw [hget, ht]
  simp only [Option.getD_some]
  rw [findTextPosition, if_neg hne]
  simp [hfi]

/-- C1 witness. -/
theorem mapChangesToDocument_exact_witness :
    ∃ ch : SuggestedChange,
      mapChangesToDocument
        [{ type := ChangeType.REPLACEMENT
           originalText := some ['w', 'o']
           suggestedText := none
           reason := []
           severity := ChangeSeverity.LOW
           ruleId := none
           confidence := 1 }]
        ['h', 'i', ' ', 'w', 'o', 'w'] = [ch] ∧
      ch.position.start = 3 ∧ ch.position.«end» = 5 := by
  refine ⟨_, rfl, ?_⟩
  have h := mapChangesToDocument_exact ['h', 'i', ' ', 'w', 'o', 'w']
    [{ type := ChangeType.REPLACEMENT
       originalText := some ['w', 'o']
       suggestedText := none
       reason := []
       severity := ChangeSeverity.LOW
       ruleId := none
       confidence := 1 }] 0 ['w', 'o'] 3
    (by decide) (by decide) rfl (by decide) (by decide) (by decide)
  simpa using h

/-- C2 (amended): when the contract content contains no whitespace, a
non-empty `originalText` that does not occur verbatim but whose normalized
form occurs in the normalized content is located by the fuzzy fallback at
the index in the original content where the matched passage begins.  (With
whitespace present the back-mapping loop counts whitespace characters as
zero normalized characters while the normalized text keeps one space per
run, so the returned start can overshoot the passage.) -/
theorem fuzzyFallback_start_no_ws (s f : List Char) (i : Nat)
    (hs : s ≠ [])
    (hws : ∀ c ∈ f, jsWs c = false)
    (hexact : firstIdxOf s f = none)
    (hfuzzy : firstIdxOf (normalizeText s) (normalizeText f) = some i) :
    (findTextPosition s f).start = i ∧
      normalizeText s <+: normalizeText (f.drop i) := by
  have hflow : normalizeText f = f.map Char.toLower :=
    normalizeText_eq_map_toLower hws
  have hle : i ≤ f.length := by
    have := firstIdxOf_le_length hfuzzy
    rwa [hflow, List.length_map] at this
  have hgo : backMapGo i f 0 0 = i := by
    rw [backMapGo_no_ws i f hws 0 0 (by omega)]
    omega
  constructor
  · rw [findTextPosition, if_neg hs]
    rw [fuzzyFindPosition, hfuzzy]
    simp [hexact, Option.orElse, hgo]
  · have hpre : normalizeText s <+: (normalizeText f).drop i :=
      ((firstIdxOf_eq_some_iff _ _ i).mp hfuzzy).1
    have hdrop : normalizeText (f.drop i) = (normalizeText f).drop i := by
      rw [normalizeText_eq_map_toLower
        (fun c hc => hws c (List.mem_of_mem_drop hc)), hflow,
        List.map_drop]
    rwa [hdrop]

/-- C2 witness. -/
theorem fuzzyFallback_start_no_ws_witness :
    (findTextPosition ['B'] ['a', 'b']).start = 1 ∧
      normalizeText ['B'] <+: normalizeText (['a', 'b'].drop 1) := by
  exact fuzzyFallback_start_no_ws ['B'] ['a', 'b'] 1 (by decide) (by decide)
    (by decide) (by decide)

/-- C2 counterexample: with searchText `"B"` and content `"a b"` the exact
match fails and the normalized search occurs at normalized index 2, the
start of the passage `"b"` at original index 2; but `findTextPosition`
returns start 3, one past the passage, so the normalized text from the
returned start does not begin with the normalized search. -/
theorem fuzzyFallback_start_cex :
    (['B'] : List Char) ≠ [] ∧
    firstIdxOf ['B'] ['a', ' ', 'b'] = none ∧
    firstIdxOf (normalizeText ['B']) (normalizeText ['a', ' ', 'b']) =
      some 2 ∧
    (findTextPosition ['B'] ['a', ' ', 'b']).start = 3 ∧
    ¬ normalizeText ['B'] <+:
        normalizeText (['a', ' ', 'b'].drop
          (findTextPosition ['B'] ['a', ' ', 'b']).start) := by
  decide

/-- C6: `findTextPosition` always terminates with a `TextPosition`; in
particular the character-by-character back-mapping loop of the fuzzy
fallback terminates, because its original-text index strictly increases at
every iteration and is bounded by the length of `fullText` — a fuel of
`fullText.length` iterations always suffices. -/
theorem findTextPosition_total (searchText fullText : List Char)
    (idx oIdx nIdx fuel : Nat) (hfuel : fullText.length ≤ fuel) :
    (∃ p : TextPosition, findTextPosition searchText fullText = p) ∧
    backMapFuel idx fuel fullText oIdx nIdx =
      some (backMapGo idx fullText oIdx nIdx) :=
  ⟨⟨_, rfl⟩, backMapFuel_eq idx fullText fuel oIdx nIdx hfuel⟩

/-- C6 witness. -/
theorem findTextPosition_total_witness :
    (∃ p : TextPosition, findTextPosition ['B'] ['a', ' ', 'b'] = p) ∧
    backMapFuel 2 3 ['a', ' ', 'b'] 0 0 =
      some (backMapGo 2 ['a', ' ', 'b'] 0 0) :=
  findTextPosition_total ['B'] ['a', ' ', 'b'] 2 0 0 3 (by decide)

/-- C8: `findTextPosition` is total and returns the sentinel position
`{start := 0, end := 0}` both when `searchText` is empty and when the text
cannot be located even by the fuzzy fallback — the two cases produce the
same value, so a caller cannot distinguish an unlocatable change from a
genuine zero-length match at the start of the document. -/
theorem findTextPosition_sentinel (s f : List Char)
    (h : s = [] ∨ (firstIdxOf s f = none ∧
      firstIdxOf (normalizeText s) (normalizeText f) = none)) :
    findTextPosition s f =
      { start := 0, «end» := 0, line := none, column := none } := by
  rcases h with rfl | ⟨h1, h2⟩
  · rw [findTextPosition, if_pos rfl]
  · by_cases hs : s = []
    · rw [findTextPosition, if_pos hs]
    · have hfz : fuzzyFindPosition s f = none := by
        rw [fuzzyFindPosition, h2]
      rw [findTextPosition, if_neg hs, h1]
      simp [Option.orElse, hfz]

/-- C8 witness. -/
theorem findTextPosition_sentinel_witness :
    findTextPosition ['x'] [] =
      { start := 0, «end» := 0, line := none, column := none } ∧
    findTextPosition [] ['a'] =
      { start := 0, «end» := 0, line := none, column := none } :=
  ⟨findTextPosition_sentinel ['x'] [] (Or.inr ⟨by decide, by decide⟩),
    findTextPosition_sentinel [] ['a'] (Or.inl rfl)⟩

/-! ## Lemmas for the Lexical conversions -/

theorem stripHtmlTags_no_lt {a : List Char} (ha : '<' ∉ a) :
    stripHtmlTags a = a := by
  induction a with
  | nil => rw [stripHtmlTags]
  | cons c rest ih =>
    have hc : ¬ c = '<' := fun hcc => ha (by simp [hcc])
    rw [stripHtmlTags, if_neg hc, ih fun hm => ha (by simp [hm])]

theorem dropWhile_to_gt {b : List Char} (hb : '>' ∉ b) (c : List Char) :
    ((b ++ ('>' :: c)).dropWhile fun x => x ≠ '>') = '>' :: c := by
  induction b with
  | nil => simp [List.dropWhile_cons]
  | cons x xs ih =>
    have hx : x ≠ '>' := fun h => hb (by simp [h])
    rw [List.cons_append, List.dropWhile_cons, if_pos (by simpa using hx)]
    exact ih fun hm => hb (by simp [hm])

theorem stripHtmlTags_cons_lt (rest : List Char)
    (hne : (rest.dropWhile fun x => x ≠ '>') ≠ []) :
    stripHtmlTags ('<' :: rest) =
      stripHtmlTags (rest.dropWhile fun x => x ≠ '>').tail := by
  rw [stripHtmlTags, if_pos rfl, dif_neg hne]

theorem stripHtmlTags_removes {a b : List Char} (ha : '<' ∉ a) (hb : '>' ∉ b)
    (c : List Char) :
    stripHtmlTags (a ++ ('<' :: (b ++ ('>' :: c)))) = a ++ stripHtmlTags c := by
  induction a with
  | nil =>
    simp only [List.nil_append]
    rw [stripHtmlTags_cons_lt (b ++ ('>' :: c))
      (by rw [dropWhile_to_gt hb]; simp)]
    rw [dropWhile_to_gt hb]
    rfl
  | cons x xs ih =>
    have hx : ¬ x = '<' := fun hcc => ha (by simp [hcc])
    rw [List.cons_append, stripHtmlTags, if_neg hx,
      ih fun hm => ha (by simp [hm]), List.cons_append]

theorem extractText_paragraphNodeOf (y : List Char) :
    extractText (paragraphNodeOf y) = y := by
  rw [paragraphNodeOf, extractText, if_neg (by decide)]
  rw [textNodeOf, extractTextList, extractText, if_pos rfl, extractTextList]
  simp

theorem lexicalToText_textToLexical (t : List Char) :
    lexicalToText (textToLexical t) =
      joinNN (((splitNN t).filter fun p => jsTrim p ≠ []).map jsTrim) := by
  rw [lexicalToText, textToLexical]
  simp only [List.map_map, Function.comp]
  congr 1
  exact List.map_congr_left fun p _ => extractText_paragraphNodeOf (jsTrim p)

theorem jsTrim_of_ends {p : List Char}
    (h1 : ∀ ch, p.head? = some ch → jsWs ch = false)
    (h2 : ∀ ch, p.getLast? = some ch → jsWs ch = false) :
    jsTrim p = p := by
  have hd : p.dropWhile jsWs = p := by
    cases p with
    | nil => rfl
    | cons x xs => rw [List.dropWhile_cons, if_neg (by simp [h1 x rfl])]
  have hrev : p.reverse.dropWhile jsWs = p.reverse := by
    cases hp : p.reverse with
    | nil => rfl
    | cons x xs =>
      have hlx : p.getLast? = some x := by
        rw [← List.head?_reverse, hp]
        rfl
      rw [List.dropWhile_cons, if_neg (by simp [h2 x hlx])]
  rw [jsTrim, hd, hrev, List.reverse_reverse]

theorem splitNN_self {p : List Char} (hnn : hasNN p = false) :
    splitNN p = [p] := by
  induction p with
  | nil => rfl
  | cons x p' ih =>
    cases p' with
    | nil => rfl
    | cons c2 p'' =>
      rw [hasNN] at hnn
      simp only [Bool.or_eq_false_iff] at hnn
      have hcond : ¬ (x = '\n' ∧ c2 = '\n') := by
        intro ⟨hx, hc⟩
        rcases hnn with ⟨h1, -⟩
        simp [hx, hc] at h1
      rw [splitNN, if_neg hcond, ih hnn.2]

theorem splitNN_append {p : List Char} (hnn : hasNN p = false)
    (hlast : p.getLast? ≠ some '\n') (rest : List Char) :
    splitNN (p ++ '\n' :: '\n' :: rest) = p :: splitNN rest := by
  induction p with
  | nil => rw [List.nil_append, splitNN, if_pos ⟨rfl, rfl⟩]
  | cons x p' ih =>
    cases p' with
    | nil =>
      have hx : ¬ (x = '\n' ∧ ('\n' : Char) = '\n') := by
        rintro ⟨hx1, -⟩
        exact hlast (by simp [hx1])
      rw [List.cons_append, List.nil_append, splitNN, if_neg hx, splitNN,
        if_pos ⟨rfl, rfl⟩]
    | cons c2 p'' =>
      rw [hasNN] at hnn
      simp only [Bool.or_eq_false_iff] at hnn
      have hcond : ¬ (x = '\n' ∧ c2 = '\n') := by
        intro ⟨hx1, hc1⟩
        rcases hnn with ⟨h1, -⟩
        simp [hx1, hc1] at h1
      have hlast' : (c2 :: p'').getLast? ≠ some '\n' := by
        rwa [List.getLast?_cons_cons] at hlast
      rw [List.cons_append, List.cons_append, splitNN, if_neg hcond]
      have hrec := ih hnn.2 hlast'
      rw [List.cons_append] at hrec
      rw [hrec]

theorem splitNN_joinNN {ps : List (List Char)} (hne : ps ≠ [])
    (h : ∀ p ∈ ps, hasNN p = false ∧ p.getLast? ≠ some '\n') :
    splitNN (joinNN ps) = ps := by
  induction ps with
  | nil => exact absurd rfl hne
  | cons p ps' ih =>
    cases ps' with
    | nil => exact splitNN_self (h p (by simp)).1
    | cons q qs =>
      rw [joinNN, splitNN_append (h p (by simp)).1 (h p (by simp)).2,
        ih (List.cons_ne_nil q qs) fun r hr => h r (by simp [hr])]
      exact List.cons_ne_nil q qs

theorem head_all_nonws {p : List Char}
    (h : (p.head?.all fun ch => !jsWs ch) = true) :
    ∀ ch, p.head? = some ch → jsWs ch = false := by
  intro ch hch
  rw [hch] at h
  simpa using h

theorem getLast_all_nonws {p : List Char}
    (h : (p.getLast?.all fun ch => !jsWs ch) = true) :
    ∀ ch, p.getLast? = some ch → jsWs ch = false := by
  intro ch hch
  rw [hch] at h
  simpa using h

/-! ## Claims about the Lexical conversions -/

/-- C5: for every input HTML string, `htmlToLexical` returns a state whose
root has exactly one paragraph child containing exactly one text node, and
that node's text is the input with every substring of the form
`'<' … next '>'` removed: tag-free text is kept verbatim and each span from
a `'<'` to the next `'>'` is deleted. -/
theorem htmlToLexical_shape (html a b c : List Char)
    (ha : '<' ∉ a) (hb : '>' ∉ b) :
    (htmlToLexical html).root.children =
      [paragraphNodeOf (stripHtmlTags html)] ∧
    (paragraphNodeOf (stripHtmlTags html)).type =
      ['p', 'a', 'r', 'a', 'g', 'r', 'a', 'p', 'h'] ∧
    (paragraphNodeOf (stripHtmlTags html)).children =
      some [textNodeOf (stripHtmlTags html)] ∧
    (textNodeOf (stripHtmlTags html)).type = ['t', 'e', 'x', 't'] ∧
    (textNodeOf (stripHtmlTags html)).text = some (stripHtmlTags html) ∧
    stripHtmlTags a = a ∧
    stripHtmlTags (a ++ ('<' :: (b ++ ('>' :: c)))) = a ++ stripHtmlTags c :=
  ⟨rfl, rfl, rfl, rfl, rfl, stripHtmlTags_no_lt ha,
    stripHtmlTags_removes ha hb c⟩

/-- C5 witness. -/
theorem htmlToLexical_shape_witness :
    (htmlToLexical ['x', '<', 'i', '>', 'y']).root.children =
      [paragraphNodeOf (stripHtmlTags ['x', '<', 'i', '>', 'y'])] ∧
    stripHtmlTags (['x'] ++ ('<' :: (['i'] ++ ('>' :: ['y'])))) =
      ['x'] ++ stripHtmlTags ['y'] := by
  have h := htmlToLexical_shape ['x', '<', 'i', '>', 'y'] ['x'] ['i'] ['y']
    (by decide) (by decide)
  exact ⟨h.1, h.2.2.2.2.2.2⟩

/-- C9 (amended): the round trip `lexicalToText ∘ textToLexical` returns the
`"\n\n"`-join of the trimmed non-blank `"\n\n"`-separated paragraphs of the
input, and is the identity on every `"\n\n"`-join of non-empty paragraphs
that have no leading or trailing whitespace and do not themselves contain
`"\n\n"`.  (Without the last condition the identity fails: a paragraph such
as `"a\n\n\nb"` is re-split by the round trip.) -/
theorem lexical_roundTrip (t : List Char) (ps : List (List Char))
    (h : ∀ p ∈ ps, p ≠ [] ∧ hasNN p = false ∧
      (p.head?.all fun ch => !jsWs ch) = true ∧
      (p.getLast?.all fun ch => !jsWs ch) = true) :
    lexicalToText (textToLexical t) =
      joinNN (((splitNN t).filter fun p => jsTrim p ≠ []).map jsTrim) ∧
    lexicalToText (textToLexical (joinNN ps)) = joinNN ps := by
  refine ⟨lexicalToText_textToLexical t, ?_⟩
  cases ps with
  | nil => decide
  | cons p ps' =>
    rw [lexicalToText_textToLexical]
    have hsplit : splitNN (joinNN (p :: ps')) = p :: ps' := by
      refine splitNN_joinNN (List.cons_ne_nil p ps') fun r hr => ⟨(h r hr).2.1, ?_⟩
      intro hlast
      have hzz := getLast_all_nonws (h r hr).2.2.2 '\n' hlast
      simp [jsWs] at hzz
    rw [hsplit]
    have htrim : ∀ r ∈ p :: ps', jsTrim r = r := fun r hr =>
      jsTrim_of_ends (head_all_nonws (h r hr).2.2.1)
        (getLast_all_nonws (h r hr).2.2.2)
    have hfilter : ((p :: ps').filter fun r => jsTrim r ≠ []) = p :: ps' := by
      rw [List.filter_eq_self]
      intro r hr
      simp [htrim r hr, (h r hr).1]
    rw [hfilter]
    rw [show (p :: ps').map jsTrim = (p :: ps').map id from
      List.map_congr_left fun r hr => htrim r hr, List.map_id]

/-- C9 witness. -/
theorem lexical_roundTrip_witness :
    lexicalToText (textToLexical ['a', ' ', '\n', '\n', 'b']) =
      joinNN (((splitNN ['a', ' ', '\n', '\n', 'b']).filter
        fun p => jsTrim p ≠ []).map jsTrim) ∧
    lexicalToText (textToLexical (joinNN [['a'], ['b', 'c']])) =
      joinNN [['a'], ['b', 'c']] :=
  lexical_roundTrip ['a', ' ', '\n', '\n', 'b'] [['a'], ['b', 'c']] (by decide)

/-- C9 counterexample: `"a\n\n\nb"` is itself a `"\n\n"`-join of a single
non-empty paragraph without leading or trailing whitespace, yet the round
trip returns `"a\n\nb"`, not the input: the paragraph contains `"\n\n"` and
is re-split. -/
theorem lexical_roundTrip_cex :
    joinNN [['a', '\n', '\n', '\n', 'b']] = ['a', '\n', '\n', '\n', 'b'] ∧
    (['a', '\n', '\n', '\n', 'b'] : List Char) ≠ [] ∧
    ((['a', '\n', '\n', '\n', 'b'] : List Char).head?.all
      fun ch => !jsWs ch) = true ∧
    ((['a', '\n', '\n', '\n', 'b'] : List Char).getLast?.all
      fun ch => !jsWs ch) = true ∧
    lexicalToText (textToLexical ['a', '\n', '\n', '\n', 'b']) =
      ['a', '\n', '\n', 'b'] ∧
    (['a', '\n', '\n', 'b'] : List Char) ≠ ['a', '\n', '\n', '\n', 'b'] := by
  decide

/-! ## Lemmas for `parseAIResponse` -/

theorem dropWhile_head_false {p : Char → Bool} {l : List Char} {c : Char}
    {rest : List Char} (h : l.dropWhile p = c :: rest) : p c = false := by
  induction l with
  | nil => simp at h
  | cons x xs ih =>
    rw [List.dropWhile_cons] at h
    by_cases hp : p x
    · rw [if_pos hp] at h
      exact ih h
    · rw [if_neg hp] at h
      cases h
      simpa using hp

theorem jsonMatchR_eq_none {text : List Char}
    (hno : ∀ i j : Nat, i < j → text[i]? = some '{' → text[j]? ≠ some '}') :
    jsonMatchR text = none := by
  rw [jsonMatchR]
  cases hdw : text.dropWhile (fun c => c ≠ '{') with
  | nil => rfl
  | cons c rest =>
    have hc : c = '{' := by simpa using dropWhile_head_false hdw
    have hsplit : (text.takeWhile fun x => x ≠ '{') ++ (c :: rest) = text := by
      rw [← hdw]
      exact List.takeWhile_append_dropWhile _ _
    have hcond : (rest.reverse.dropWhile fun x => x ≠ '}') = [] := by
      by_contra hne
      cases hrr : rest.reverse.dropWhile (fun x => x ≠ '}') with
      | nil => exact hne hrr
      | cons d ds =>
        have hd : d = '}' := by simpa using dropWhile_head_false hrr
        have hmem : d ∈ rest := by
          have h1 : d ∈ rest.reverse.dropWhile (fun x => x ≠ '}') := by
            rw [hrr]
            simp
          exact List.mem_reverse.mp (List.Sublist.mem h1 (List.dropWhile_sublist _))
        rcases List.getElem_of_mem hmem with ⟨k, hk, hkeq⟩
        have hi' : ((text.takeWhile fun x => x ≠ '{') ++
            (c :: rest))[(text.takeWhile fun x => x ≠ '{').length]? =
            some '{' := by
          rw [List.getElem?_append_right (Nat.le_refl _)]
          simp [hc]
        have hj' : ((text.takeWhile fun x => x ≠ '{') ++
            (c :: rest))[(text.takeWhile fun x => x ≠ '{').length + 1 + k]? =
            some '}' := by
          rw [List.getElem?_append_right (by omega)]
          have hidx : (text.takeWhile fun x => x ≠ '{').length + 1 + k -
              (text.takeWhile fun x => x ≠ '{').length = k + 1 := by omega
          rw [hidx, List.getElem?_cons_succ, List.getElem?_eq_getElem hk,
            hkeq, hd]
        exact hno _ _ (by omega) (hsplit ▸ hi') (hsplit ▸ hj')
    have hnotin : '}' ∉ rest := by
      intro hmem
      have hx := List.dropWhile_eq_nil_iff.mp hcond '}' (List.mem_reverse.mpr hmem)
      simp at hx
    simp [hcond, hnotin]

/-! ## Claims about `parseAIResponse` -/

/-- C3: `parseAIResponse` throws when the response text contains no JSON
object (no `'{'` with a later `'}'`); the validation stage throws when the
extracted JSON lacks a `summary` field or its `riskScore` is not a number;
and on success every one of `changes`, `missingClauses`, `risks` and
`keyTerms` that is absent from the JSON is the empty array in the result. -/
theorem parseAIResponse_validation :
    (∀ (jsonParse : List Char → Option JsonValue) (text : List Char),
      (∀ i j : Nat, i < j → text[i]? = some '{' → text[j]? ≠ some '}') →
      parseAIResponse jsonParse text = Except.error noJsonMsg) ∧
    (∀ j : JsonValue,
      (getField j summaryKey = none ∨
        ∀ q : ℚ, getField j riskScoreKey ≠ some (JsonValue.num q)) →
      validateAnalysis j = Except.error invalidMsg) ∧
    (∀ (j : JsonValue) (a : AnalysisResult), validateAnalysis j = Except.ok a →
      (getField j changesKey = none → a.changes = JsonValue.arr []) ∧
      (getField j missingClausesKey = none →
        a.missingClauses = JsonValue.arr []) ∧
      (getField j risksKey = none → a.risks = JsonValue.arr []) ∧
      (getField j keyTermsKey = none → a.keyTerms = JsonValue.arr [])) := by
  refine ⟨?_, ?_, ?_⟩
  · intro jsonParse text hno
    rw [parseAIResponse, jsonMatchR_eq_none hno]
  · intro j h
    rw [validateAnalysis]
    rcases hs : getField j summaryKey with - | s
    · rcases hr : getField j riskScoreKey with - | r <;> rfl
    · rcases hr : getField j riskScoreKey with - | r
      · rfl
      · rcases h with h | h
        · rw [hs] at h
          cases h
        · cases r with
          | num q => exact absurd hr (h q)
          | null => rfl
          | bool b => rfl
          | str s2 => rfl
          | arr xs => rfl
          | obj fs => rfl
  · intro j a ha
    rw [validateAnalysis] at ha
    split at ha
    · split at ha
      · cases ha
        refine ⟨fun hc => ?_, fun hc => ?_, fun hc => ?_, fun hc => ?_⟩ <;>
          simp [jsOr, hc]
      · cases ha
    · cases ha

/-- C3 witness. -/
theorem parseAIResponse_validation_witness :
    parseAIResponse (fun _ => none) [] = Except.error noJsonMsg ∧
    validateAnalysis (JsonValue.obj []) = Except.error invalidMsg ∧
    ∃ a : AnalysisResult,
      validateAnalysis (JsonValue.obj [(summaryKey, JsonValue.str ['s']),
        (riskScoreKey, JsonValue.num 3)]) = Except.ok a ∧
      a.changes = JsonValue.arr [] ∧ a.missingClauses = JsonValue.arr [] ∧
      a.risks = JsonValue.arr [] ∧ a.keyTerms = JsonValue.arr [] := by
  refine ⟨?_, ?_, ?_⟩
  · refine parseAIResponse_validation.1 (fun _ => none) [] ?_
    intro i j hij hi
    simp at hi
  · exact parseAIResponse_validation.2.1 (JsonValue.obj []) (Or.inl rfl)
  · have hok : (validateAnalysis (JsonValue.obj
        [(summaryKey, JsonValue.str ['s']),
         (riskScoreKey, JsonValue.num 3)])).isOk = true := rfl
    cases hval : validateAnalysis (JsonValue.obj
        [(summaryKey, JsonValue.str ['s']), (riskScoreKey, JsonValue.num 3)]) with
    | error e =>
      rw [hval] at hok
      simp [Except.isOk, Except.toBool] at hok
    | ok a =>
      have hfields := parseAIResponse_validation.2.2 _ a hval
      exact ⟨a, rfl, hfields.1 rfl, hfields.2.1 rfl, hfields.2.2.1 rfl,
        hfields.2.2.2 rfl⟩

/-- C4 (amended): in every successfully validated response the riskScore
lies in [0, 10]; a missing complianceScore defaults to 5; a riskScore
already in [0, 10] is returned unchanged, as is a numeric complianceScore
in (0, 10] — but a complianceScore equal to 0 is falsy in JavaScript, so
`analysis.complianceScore || 5` replaces it by 5 rather than returning it
unchanged; a numeric complianceScore always yields a result in [0, 10],
while a truthy complianceScore that does not convert to a number survives
the `|| 5` default and propagates `NaN` (`none`) through the clamp, so the
result complianceScore is then not a number in [0, 10]. -/
theorem parseAIResponse_scores (j : JsonValue) (a : AnalysisResult)
    (ha : validateAnalysis j = Except.ok a) :
    (0 ≤ a.riskScore ∧ a.riskScore ≤ 10) ∧
    (getField j complianceScoreKey = none → a.complianceScore = some 5) ∧
    (∀ q : ℚ, getField j riskScoreKey = some (JsonValue.num q) →
      0 ≤ q → q ≤ 10 → a.riskScore = q) ∧
    (∀ q : ℚ, getField j complianceScoreKey = some (JsonValue.num q) →
      0 ≤ q → q ≤ 10 → q ≠ 0 → a.complianceScore = some q) ∧
    (∀ q : ℚ, getField j complianceScoreKey = some (JsonValue.num q) →
      ∃ cs : ℚ, a.complianceScore = some cs ∧ 0 ≤ cs ∧ cs ≤ 10) ∧
    (∀ v : JsonValue, getField j complianceScoreKey = some v →
      truthy v = true → toNumber v = none → a.complianceScore = none) := by
  rw [validateAnalysis] at ha
  split at ha
  case _ s q hseq hreq =>
    split at ha
    case _ ht =>
      cases ha
      refine ⟨⟨le_max_left 0 _, max_le (by norm_num) (min_le_left 10 q)⟩,
        ?_, ?_, ?_, ?_, ?_⟩
      · intro hc
        simp only [hc, jsOr, toNumber, clamp10]
        norm_num
      · intro q' hq' hq0 hq10
        rw [hreq] at hq'
        have : q = q' := by
          cases hq'
          rfl
        subst this
        show max 0 (min 10 q) = q
        rw [min_eq_right hq10, max_eq_right hq0]
      · intro q' hq' hq0 hq10 hqne
        rw [hq']
        simp only [jsOr, truthy]
        rw [if_pos (by simpa using hqne)]
        simp only [toNumber, clamp10]
        rw [min_eq_right hq10, max_eq_right hq0]
      · intro q' hq'
        rw [hq']
        simp only [jsOr, truthy]
        by_cases hz : q' = 0
        · rw [if_neg (by simpa using hz)]
          simp only [toNumber, clamp10]
          exact ⟨_, rfl, by norm_num, by norm_num⟩
        · rw [if_pos (by simpa using hz)]
          simp only [toNumber, clamp10]
          exact ⟨_, rfl, le_max_left 0 _,
            max_le (by norm_num) (min_le_left 10 q')⟩
      · intro v hv htv htn
        rw [hv]
        simp only [jsOr]
        rw [if_pos htv, htn]
        rfl
    case _ ht => cases ha
  case _ x y hxy => cases ha

/-- C4 witness. -/
theorem parseAIResponse_scores_witness :
    ∃ a : AnalysisResult,
      validateAnalysis (JsonValue.obj [(summaryKey, JsonValue.str ['s']),
        (riskScoreKey, JsonValue.num 3),
        (complianceScoreKey, JsonValue.num 7)]) = Except.ok a ∧
      a.riskScore = 3 ∧ a.complianceScore = some 7 ∧
      0 ≤ a.riskScore ∧ a.riskScore ≤ 10 := by
  have hok : (validateAnalysis (JsonValue.obj
      [(summaryKey, JsonValue.str ['s']), (riskScoreKey, JsonValue.num 3),
       (complianceScoreKey, JsonValue.num 7)])).isOk = true := rfl
  cases hval : validateAnalysis (JsonValue.obj
      [(summaryKey, JsonValue.str ['s']), (riskScoreKey, JsonValue.num 3),
       (complianceScoreKey, JsonValue.num 7)]) with
  | error e =>
    rw [hval] at hok
    simp [Except.isOk, Except.toBool] at hok
  | ok a =>
    have h := parseAIResponse_scores _ a hval
    exact ⟨a, rfl, h.2.2.1 3 rfl (by norm_num) (by norm_num),
      h.2.2.2.1 7 rfl (by norm_num) (by norm_num) (by norm_num),
      h.1.1, h.1.2⟩

/-- C4 counterexample, two failures of the unamended claim: (1) a parsed
`complianceScore` of 0 is in [0, 10] but is not returned unchanged:
`analysis.complianceScore || 5` treats 0 as falsy, so the result is 5;
(2) a truthy non-numeric `complianceScore` such as the string `"abc"`
survives the `|| 5` default, `Math.max(0, Math.min(10, "abc"))` is `NaN`
(`none`), and the result complianceScore is no number in [0, 10] at all. -/
theorem parseAIResponse_scores_cex :
    getField (JsonValue.obj [(summaryKey, JsonValue.str ['s']),
      (riskScoreKey, JsonValue.num 3), (complianceScoreKey, JsonValue.num 0)])
      complianceScoreKey = some (JsonValue.num 0) ∧
    ((validateAnalysis (JsonValue.obj [(summaryKey, JsonValue.str ['s']),
      (riskScoreKey, JsonValue.num 3),
      (complianceScoreKey, JsonValue.num 0)])).toOption.map
        fun a => a.complianceScore) = some (some 5) ∧
    ¬ ((validateAnalysis (JsonValue.obj [(summaryKey, JsonValue.str ['s']),
      (riskScoreKey, JsonValue.num 3),
      (complianceScoreKey, JsonValue.num 0)])).toOption.map
        fun a => a.complianceScore) = some (some 0) ∧
    getField (JsonValue.obj [(summaryKey, JsonValue.str ['s']),
      (riskScoreKey, JsonValue.num 3),
      (complianceScoreKey, JsonValue.str ['a', 'b', 'c'])])
      complianceScoreKey = some (JsonValue.str ['a', 'b', 'c']) ∧
    truthy (JsonValue.str ['a', 'b', 'c']) = true ∧
    ((validateAnalysis (JsonValue.obj [(summaryKey, JsonValue.str ['s']),
      (riskScoreKey, JsonValue.num 3),
      (complianceScoreKey, JsonValue.str ['a', 'b', 'c'])])).toOption.map
        fun a => a.complianceScore) = some none ∧
    ∀ cs : ℚ,
      ¬ ((validateAnalysis (JsonValue.obj [(summaryKey, JsonValue.str ['s']),
        (riskScoreKey, JsonValue.num 3),
        (complianceScoreKey, JsonValue.str ['a', 'b', 'c'])])).toOption.map
          fun a => a.complianceScore) = some (some cs) := by
  have hmax : max (0 : ℚ) (min 10 5) = 5 := by norm_num
  have habc : ((validateAnalysis (JsonValue.obj
      [(summaryKey, JsonValue.str ['s']), (riskScoreKey, JsonValue.num 3),
       (complianceScoreKey, JsonValue.str ['a', 'b', 'c'])])).toOption.map
        fun a => a.complianceScore) = some none := rfl
  refine ⟨rfl, ?_, ?_, rfl, rfl, habc, ?_⟩
  · show some (some (max (0 : ℚ) (min 10 5))) = some (some 5)
    rw [hmax]
  · show ¬ some (some (max (0 : ℚ) (min 10 5))) = some (some 0)
    rw [hmax]
    simp
  · intro cs h
    rw [habc] at h
    simp at h

/-! ## Claim about `buildAnalysisPrompt` -/

/-- C7: the analysis prompt contains exactly the playbook's rules with
`isActive` true and no inactive rule, listed in severity order CRITICAL,
HIGH, MEDIUM, LOW, INFO, ties between equal severities broken by ascending
`orderIndex`. -/
theorem buildAnalysisPrompt_rules (contractContent : List Char)
    (playbook : Playbook) :
    (∀ r : Rule, r ∈ sortedRulesOf playbook ↔
      r ∈ playbook.rules ∧ r.isActive = true) ∧
    List.Pairwise (fun a b =>
      severityOrder a.severity < severityOrder b.severity ∨
      (severityOrder a.severity = severityOrder b.severity ∧
        a.orderIndex ≤ b.orderIndex)) (sortedRulesOf playbook) ∧
    ∃ pre : List Char, buildAnalysisPrompt contractContent playbook =
      pre ++ rulesSection (sortedRulesOf playbook) ++ analysisInstructions := by
  refine ⟨?_, ?_, ?_⟩
  · intro r
    rw [sortedRulesOf, (List.mergeSort_perm _ ruleLE).mem_iff]
    exact List.mem_filter
  · have htrans : ∀ a b c : Rule, ruleLE a b = true → ruleLE b c = true →
        ruleLE a c = true := by
      intro a b c hab hbc
      simp only [ruleLE, Bool.or_eq_true, Bool.and_eq_true,
        decide_eq_true_eq] at hab hbc ⊢
      omega
    have htot : ∀ a b : Rule, (ruleLE a b || ruleLE b a) = true := by
      intro a b
      simp only [ruleLE, Bool.or_eq_true, Bool.and_eq_true,
        decide_eq_true_eq]
      omega
    have hs := List.sorted_mergeSort htrans htot
      (playbook.rules.filter fun r => r.isActive)
    rw [sortedRulesOf]
    refine hs.imp ?_
    intro a b hab
    simpa only [ruleLE, Bool.or_eq_true, Bool.and_eq_true,
      decide_eq_true_eq] using hab
  · exact ⟨_, rfl⟩

/-- C7 witness. -/
theorem buildAnalysisPrompt_rules_witness :
    ({ id := ['h'], name := [], type := [], severity := RuleSeverity.HIGH,
       aiPrompt := [], orderIndex := 0, isActive := true,
       preferredLanguage := none } : Rule) ∈
      sortedRulesOf
        { name := ['p'], description := none, contractType := none
          rules :=
            [{ id := ['c'], name := [], type := [],
               severity := RuleSeverity.CRITICAL, aiPrompt := [],
               orderIndex := 0, isActive := false,
               preferredLanguage := none },
             { id := ['h'], name := [], type := [],
               severity := RuleSeverity.HIGH, aiPrompt := [],
               orderIndex := 0, isActive := true,
               preferredLanguage := none }] } ∧
    ({ id := ['c'], name := [], type := [], severity := RuleSeverity.CRITICAL,
       aiPrompt := [], orderIndex := 0, isActive := false,
       preferredLanguage := none } : Rule) ∉
      sortedRulesOf
        { name := ['p'], description := none, contractType := none
          rules :=
            [{ id := ['c'], name := [], type := [],
               severity := RuleSeverity.CRITICAL, aiPrompt := [],
               orderIndex := 0, isActive := false,
               preferredLanguage := none },
             { id := ['h'], name := [], type := [],
               severity := RuleSeverity.HIGH, aiPrompt := [],
               orderIndex := 0, isActive := true,
               preferredLanguage := none }] } := by
  constructor
  · exact ((buildAnalysisPrompt_rules [] _).1 _).mpr ⟨by simp, rfl⟩
  · intro hmem
    have hx := ((buildAnalysisPrompt_rules [] _).1 _).mp hmem
    simp at hx

/-! ## Lemmas for `extractKeyTerms` -/

theorem jsWs_not_lower {c : Char} (h : jsWs c = true) : isLowerAZ c = false := by
  simp only [jsWs, Bool.or_eq_true, Bool.and_eq_true, decide_eq_true_eq] at h
  simp only [isLowerAZ, Bool.and_eq_false_iff, decide_eq_false_iff_not]
  omega

theorem upper_not_jsWs {c : Char} (h : isUpperAZ c = true) : jsWs c = false := by
  simp only [isUpperAZ, Bool.and_eq_true, decide_eq_true_eq] at h
  simp only [jsWs, Bool.or_eq_false_iff, Bool.and_eq_false_iff,
    decide_eq_false_iff_not]
  omega

theorem dedupFirstAux_mem : ∀ (xs seen : List (List Char)) {t : List Char},
    t ∈ dedupFirstAux seen xs → t ∈ xs := by
  intro xs
  induction xs with
  | nil =>
    intro seen t ht
    rw [dedupFirstAux] at ht
    exact ht
  | cons x xs ih =>
    intro seen t ht
    rw [dedupFirstAux] at ht
    by_cases hx : x ∈ seen
    · rw [if_pos hx] at ht
      exact List.mem_cons_of_mem x (ih seen ht)
    · rw [if_neg hx] at ht
      rcases List.mem_cons.mp ht with rfl | ht2
      · exact List.mem_cons_self _ _
      · exact List.mem_cons_of_mem x (ih (x :: seen) ht2)

theorem dedupFirst_mem {xs : List (List Char)} {t : List Char}
    (h : t ∈ dedupFirst xs) : t ∈ xs :=
  dedupFirstAux_mem xs [] h

theorem dedupFirstAux_not_seen : ∀ (xs seen : List (List Char))
    {t : List Char}, t ∈ dedupFirstAux seen xs → t ∉ seen := by
  intro xs
  induction xs with
  | nil =>
    intro seen t ht
    rw [dedupFirstAux] at ht
    exact absurd ht (List.not_mem_nil t)
  | cons x xs ih =>
    intro seen t ht
    rw [dedupFirstAux] at ht
    by_cases hx : x ∈ seen
    · rw [if_pos hx] at ht
      exact ih seen ht
    · rw [if_neg hx] at ht
      rcases List.mem_cons.mp ht with rfl | ht2
      · exact hx
      · have := ih (x :: seen) ht2
        exact fun hmem => this (List.mem_cons_of_mem x hmem)

theorem dedupFirstAux_nodup : ∀ (xs seen : List (List Char)),
    (dedupFirstAux seen xs).Nodup := by
  intro xs
  induction xs with
  | nil =>
    intro seen
    rw [dedupFirstAux]
    exact List.nodup_nil
  | cons x xs ih =>
    intro seen
    rw [dedupFirstAux]
    by_cases hx : x ∈ seen
    · rw [if_pos hx]
      exact ih seen
    · rw [if_neg hx]
      refine List.nodup_cons.mpr ⟨?_, ih (x :: seen)⟩
      intro hmem
      exact dedupFirstAux_not_seen xs (x :: seen) hmem (List.mem_cons_self _ _)

theorem dedupFirst_nodup (xs : List (List Char)) : (dedupFirst xs).Nodup :=
  dedupFirstAux_nodup xs []

theorem Interleaves_prepend {l : List Char} {ms : List (List Char)}
    (pre : List Char) (h : Interleaves l ms) : Interleaves (pre ++ l) ms := by
  cases ms with
  | nil => trivial
  | cons m ms' =>
    rcases h with ⟨p, r, heq, h2⟩
    exact ⟨pre ++ p, r, by rw [heq, List.append_assoc], h2⟩

theorem OccursSeq_prepend {t l : List Char} {n : Nat} (pre : List Char)
    (h : OccursSeq t n l) : OccursSeq t n (pre ++ l) := by
  cases n with
  | zero => trivial
  | succ n' =>
    rcases h with ⟨p, r, heq, h2⟩
    exact ⟨pre ++ p, r, by rw [heq, List.append_assoc], h2⟩

theorem interleaves_count_occursSeq {t : List Char} :
    ∀ (ms : List (List Char)) (l : List Char) (n : Nat),
      Interleaves l ms → n ≤ ms.count t → OccursSeq t n l := by
  intro ms
  induction ms with
  | nil =>
    intro l n _ hn
    simp only [List.count_nil, Nat.le_zero] at hn
    subst hn
    trivial
  | cons m ms' ih =>
    intro l n hint hn
    rcases hint with ⟨pre, rest, heq, hint2⟩
    rw [List.count_cons] at hn
    by_cases hmt : m = t
    · cases n with
      | zero => trivial
      | succ n' =>
        refine ⟨pre, rest, by rw [heq, hmt], ?_⟩
        refine ih rest n' hint2 ?_
        simp [hmt] at hn
        omega
    · have hn' : n ≤ ms'.count t := by
        have : (m == t) = false := by simpa using hmt
        simp [this] at hn
        omega
      subst heq
      exact OccursSeq_prepend pre (OccursSeq_prepend m (ih rest n hint2 hn'))

theorem quoteMatch_decomp {rest cap after : List Char}
    (h : quoteMatch rest = some (cap, after)) :
    cap ≠ [] ∧ (∀ c ∈ cap, c ≠ '"') ∧
    ∃ ws lit, ws ≠ [] ∧ (∀ c ∈ ws, jsWs c = true) ∧
      (lit = "means".data ∨ lit = "shall mean".data) ∧
      rest = cap ++ '"' :: (ws ++ (lit ++ after)) := by
  rw [quoteMatch] at h
  cases hdw : rest.dropWhile (fun c => c ≠ '"') with
  | nil =>
    rw [hdw] at h
    simp at h
  | cons q after0 =>
    have hq : q = '"' := by simpa using dropWhile_head_false hdw
    subst hq
    rw [hdw] at h
    simp only [List.tail_cons] at h
    rw [if_neg (List.cons_ne_nil '"' after0)] at h
    split_ifs at h with h1 h2 h3 h4
    · -- means branch
      injection h with hpair
      injection hpair with hcap hafter
      subst hcap
      refine ⟨h1, fun c hc => by simpa using List.mem_takeWhile_imp hc,
        after0.takeWhile jsWs, "means".data, h2,
        fun c hc => List.mem_takeWhile_imp hc, Or.inl rfl, ?_⟩
      have hsplit1 : (rest.takeWhile fun c => c ≠ '"') ++ ('"' :: after0) =
          rest := by
        rw [← hdw]
        exact List.takeWhile_append_dropWhile _ _
      have hsplit2 : after0.takeWhile jsWs ++ after0.dropWhile jsWs =
          after0 :=
        List.takeWhile_append_dropWhile _ _
      have hsplit3 : "means".data ++ after = after0.dropWhile jsWs := by
        rw [← hafter]
        have hp := List.prefix_iff_eq_append.mp
          (List.isPrefixOf_iff_prefix.mp h3)
        simpa using hp
      symm
      rw [hsplit3, hsplit2]
      exact hsplit1
    · -- shall mean branch
      injection h with hpair
      injection hpair with hcap hafter
      subst hcap
      refine ⟨h1, fun c hc => by simpa using List.mem_takeWhile_imp hc,
        after0.takeWhile jsWs, "shall mean".data, h2,
        fun c hc => List.mem_takeWhile_imp hc, Or.inr rfl, ?_⟩
      have hsplit1 : (rest.takeWhile fun c => c ≠ '"') ++ ('"' :: after0) =
          rest := by
        rw [← hdw]
        exact List.takeWhile_append_dropWhile _ _
      have hsplit2 : after0.takeWhile jsWs ++ after0.dropWhile jsWs =
          after0 :=
        List.takeWhile_append_dropWhile _ _
      have hsplit3 : "shall mean".data ++ after = after0.dropWhile jsWs := by
        rw [← hafter]
        have hp := List.prefix_iff_eq_append.mp
          (List.isPrefixOf_iff_prefix.mp h4)
        simpa using hp
      symm
      rw [hsplit3, hsplit2]
      exact hsplit1

theorem definedTermsGo_spec : ∀ (fuel : Nat) (l t : List Char),
    t ∈ definedTermsGo fuel l →
    t ≠ [] ∧ (∀ c ∈ t, c ≠ '"') ∧
    ∃ pre ws lit post, ws ≠ [] ∧ (∀ c ∈ ws, jsWs c = true) ∧
      (lit = "means".data ∨ lit = "shall mean".data) ∧
      l = pre ++ '"' :: (t ++ '"' :: (ws ++ (lit ++ post))) := by
  intro fuel
  induction fuel with
  | zero =>
    intro l t ht
    cases l <;> rw [definedTermsGo] at ht <;> cases ht
  | succ fuel ih =>
    intro l t ht
    cases l with
    | nil =>
      rw [definedTermsGo] at ht
      cases ht
    | cons c rest =>
      rw [definedTermsGo] at ht
      by_cases hc : c = '"'
      · rw [if_pos hc] at ht
        cases hqm : quoteMatch rest with
        | none =>
          rw [hqm] at ht
          rcases ih rest t ht with ⟨ht1, ht2, pre, ws, lit, post, hws1, hws2,
            hlit, heq⟩
          exact ⟨ht1, ht2, c :: pre, ws, lit, post, hws1, hws2, hlit,
            by rw [heq, List.cons_append]⟩
        | some capafter =>
          rcases capafter with ⟨cap, after⟩
          rw [hqm] at ht
          rcases quoteMatch_decomp hqm with ⟨hcap1, hcap2, ws, lit, hws1,
            hws2, hlit, heq⟩
          rcases List.mem_cons.mp ht with rfl | ht2
          · exact ⟨hcap1, hcap2, [], ws, lit, after, hws1, hws2, hlit,
              by rw [hc, heq]; simp [List.append_assoc]⟩
          · rcases ih after t ht2 with ⟨ht1', ht2', pre', ws', lit', post',
              hws1', hws2', hlit', heq'⟩
            refine ⟨ht1', ht2', c :: (cap ++ '"' :: (ws ++ (lit ++ pre'))),
              ws', lit', post', hws1', hws2', hlit', ?_⟩
            rw [heq, heq', hc]
            simp [List.append_assoc]
      · rw [if_neg hc] at ht
        rcases ih rest t ht with ⟨ht1, ht2, pre, ws, lit, post, hws1, hws2,
          hlit, heq⟩
        exact ⟨ht1, ht2, c :: pre, ws, lit, post, hws1, hws2, hlit,
          by rw [heq, List.cons_append]⟩

theorem phraseGroup_decomp {l g rest : List Char}
    (h : phraseGroup l = some (g, rest)) :
    l = g ++ rest ∧ ∃ ws u low, ws ≠ [] ∧ (∀ c ∈ ws, jsWs c = true) ∧
      isUpperAZ u = true ∧ low ≠ [] ∧ (∀ c ∈ low, isLowerAZ c = true) ∧
      g = ws ++ u :: low := by
  rw [phraseGroup] at h
  split_ifs at h with h1 h2 h3
  cases hdw : l.dropWhile jsWs with
  | nil => exact absurd hdw h2
  | cons u t2 =>
    rw [hdw] at h
    simp only [List.headI_cons, List.tail_cons] at h
    rw [hdw] at h3
    simp only [List.headI_cons, List.tail_cons, Bool.and_eq_true,
      decide_eq_true_eq] at h3
    injection h with hpair
    injection hpair with hg hrest
    refine ⟨?_, l.takeWhile jsWs, u, t2.takeWhile isLowerAZ, h1,
      fun c hc => List.mem_takeWhile_imp hc, h3.1, h3.2,
      fun c hc => List.mem_takeWhile_imp hc, hg.symm⟩
    rw [← hg, ← hrest]
    have hs1 : l.takeWhile jsWs ++ (u :: t2) = l := by
      rw [← hdw]
      exact List.takeWhile_append_dropWhile _ _
    have hs2 : t2.takeWhile isLowerAZ ++ t2.dropWhile isLowerAZ = t2 :=
      List.takeWhile_append_dropWhile _ _
    rw [List.append_assoc, List.cons_append, hs2]
    exact hs1.symm

theorem capWsRun_ws_append {ws rest : List Char}
    (h : ∀ c ∈ ws, jsWs c = true) : capWsRun (ws ++ rest) = capWsRun rest := by
  induction ws with
  | nil => rfl
  | cons c ws' ih =>
    rw [List.cons_append, capWsRun, if_pos (h c (by simp))]
    exact ih fun x hx => h x (by simp [hx])

theorem capAfterLower_lower_append {low rest : List Char}
    (h : ∀ c ∈ low, isLowerAZ c = true) :
    capAfterLower (low ++ rest) = capAfterLower rest := by
  induction low with
  | nil => rfl
  | cons c low' ih =>
    rw [List.cons_append, capAfterLower, if_pos (h c (by simp))]
    exact ih fun x hx => h x (by simp [hx])

theorem capAfterLower_group_append {ws low rest2 : List Char} {u : Char}
    (hws : ws ≠ []) (hwsa : ∀ c ∈ ws, jsWs c = true) (hu : isUpperAZ u = true)
    (hlow : low ≠ []) (hlowa : ∀ c ∈ low, isLowerAZ c = true) :
    capAfterLower ((ws ++ u :: low) ++ rest2) =
      capAfterLower (low ++ rest2) := by
  cases ws with
  | nil => exact absurd rfl hws
  | cons w ws' =>
    have hw : jsWs w = true := hwsa w (by simp)
    rw [List.cons_append, List.cons_append, capAfterLower,
      if_neg (by simp [jsWs_not_lower hw]), if_pos hw, List.append_assoc,
      capWsRun_ws_append fun x hx => hwsa x (by simp [hx])]
    rw [List.cons_append, capWsRun, if_neg (by simp [upper_not_jsWs hu]),
      if_pos hu]
    cases low with
    | nil => exact absurd rfl hlow
    | cons c low' =>
      rw [List.cons_append, capLowerRun, if_pos (hlowa c (by simp))]
      rw [capAfterLower, if_pos (hlowa c (by simp))]

theorem phraseExtendF_spec : ∀ (fuel : Nat) (l ext rest2 : List Char),
    phraseExtendF fuel l = (ext, rest2) →
    l = ext ++ rest2 ∧ ∀ tail : List Char,
      capAfterLower (ext ++ tail) = capAfterLower tail := by
  intro fuel
  induction fuel with
  | zero =>
    intro l ext rest2 h
    rw [phraseExtendF] at h
    injection h with h1 h2
    subst h1
    subst h2
    exact ⟨rfl, fun _ => rfl⟩
  | succ fuel ih =>
    intro l ext rest2 h
    rw [phraseExtendF] at h
    split at h
    case _ hg =>
      injection h with h1 h2
      subst h1
      subst h2
      exact ⟨rfl, fun _ => rfl⟩
    case _ g rest hg =>
      rcases phraseGroup_decomp hg with ⟨hlg, ws, u, low, hws, hwsa, hu,
        hlow, hlowa, hgshape⟩
      split at h
      case _ x hrec =>
        split_ifs at h with hw
        · injection h with h1 h2
          subst h1
          subst h2
          exact ⟨rfl, fun _ => rfl⟩
        · injection h with h1 h2
          subst h1
          subst h2
          refine ⟨hlg, fun tail => ?_⟩
          rw [hgshape, capAfterLower_group_append hws hwsa hu hlow hlowa,
            capAfterLower_lower_append hlowa]
      case _ e2 r2 hne hrec =>
        rcases ih rest e2 r2 hrec with ⟨hrest, htail⟩
        injection h with h1 h2
        subst h1
        subst h2
        refine ⟨?_, fun tail => ?_⟩
        · rw [hlg, List.append_assoc, ← hrest]
        · rw [List.append_assoc, hgshape,
            capAfterLower_group_append hws hwsa hu hlow hlowa,
            capAfterLower_lower_append hlowa]
          exact htail tail

theorem capLowerRun_all_lower {low tail : List Char} (hne : low ≠ [])
    (h : ∀ c ∈ low, isLowerAZ c = true) (htail : capAfterLower tail = true) :
    capLowerRun (low ++ tail) = true := by
  cases low with
  | nil => exact absurd rfl hne
  | cons c low' =>
    rw [List.cons_append, capLowerRun, if_pos (h c (by simp)),
      capAfterLower_lower_append fun x hx => h x (by simp [hx])]
    exact htail

theorem phraseMatch_spec {l m rest2 : List Char}
    (h : phraseMatch l = some (m, rest2)) :
    l = m ++ rest2 ∧ capPhraseShape m = true := by
  cases l with
  | nil =>
    rw [phraseMatch] at h
    cases h
  | cons u t =>
    rw [phraseMatch] at h
    by_cases hu : isUpperAZ u = true
    case neg =>
      rw [if_neg hu] at h
      cases h
    rw [if_pos hu] at h
    by_cases hlow : t.takeWhile isLowerAZ = []
    case pos =>
      rw [if_pos hlow] at h
      cases h
    rw [if_neg hlow] at h
    split at h
    case _ x hrec =>
      by_cases hw : headIsWord (t.dropWhile isLowerAZ) = true
      case pos =>
        rw [if_pos hw] at h
        cases h
      rw [if_neg hw] at h
      injection h with hpair
      injection hpair with hm hrest
      subst hm
      subst hrest
      constructor
      · rw [List.cons_append, List.takeWhile_append_dropWhile]
      · rw [capPhraseShape, hu, Bool.true_and]
        have hrun := @capLowerRun_all_lower (t.takeWhile isLowerAZ) []
          hlow (fun c hc => List.mem_takeWhile_imp hc) rfl
        simpa using hrun
    case _ e2 r2 hne hrec =>
      rcases phraseExtendF_spec _ _ _ _ hrec with ⟨hrest, htail⟩
      injection h with hpair
      injection hpair with hm hrest2
      subst hm
      subst hrest2
      have hext : capAfterLower e2 = true := by
        have h0 := htail []
        simpa using h0
      have ht : t = t.takeWhile isLowerAZ ++ (e2 ++ r2) := by
        rw [← hrest]
        exact (List.takeWhile_append_dropWhile _ _).symm
      constructor
      · conv_lhs => rw [ht]
        simp [List.cons_append, List.append_assoc]
      · rw [List.cons_append, capPhraseShape, hu, Bool.true_and]
        exact capLowerRun_all_lower hlow
          (fun c hc => List.mem_takeWhile_imp hc) hext

theorem capMatchesGo_spec : ∀ (fuel : Nat) (b : Bool) (l : List Char),
    (∀ m ∈ capMatchesGo fuel b l, capPhraseShape m = true) ∧
    Interleaves l (capMatchesGo fuel b l) := by
  intro fuel
  induction fuel with
  | zero =>
    intro b l
    cases l with
    | nil =>
      rw [capMatchesGo]
      exact ⟨fun m hm => absurd hm (List.not_mem_nil m), True.intro⟩
    | cons c rest =>
      rw [capMatchesGo]
      exact ⟨fun m hm => absurd hm (List.not_mem_nil m), True.intro⟩
  | succ fuel ih =>
    intro b l
    cases l with
    | nil =>
      rw [capMatchesGo]
      exact ⟨fun m hm => absurd hm (List.not_mem_nil m), True.intro⟩
    | cons c rest =>
      rw [capMatchesGo]
      cases b with
      | true =>
        rw [if_pos rfl]
        refine ⟨(ih (isWordChar c) rest).1, ?_⟩
        have := Interleaves_prepend [c] (ih (isWordChar c) rest).2
        simpa using this
      | false =>
        rw [if_neg (by simp)]
        cases hpm : phraseMatch (c :: rest) with
        | none =>
          refine ⟨(ih (isWordChar c) rest).1, ?_⟩
          have := Interleaves_prepend [c] (ih (isWordChar c) rest).2
          simpa using this
        | some mrest =>
          rcases mrest with ⟨m, rest2⟩
          rcases phraseMatch_spec hpm with ⟨heq, hshape⟩
          refine ⟨?_, ?_⟩
          · intro m' hm'
            rcases List.mem_cons.mp hm' with rfl | hm2
            · exact hshape
            · exact (ih true rest2).1 m' hm2
          · exact ⟨[], rest2, by simpa using heq, (ih true rest2).2⟩

/-! ## Claim about `extractKeyTerms` -/

/-- C10: `extractKeyTerms` returns a duplicate-free list of at most 20
terms, and every returned term is either a quoted term followed by `means`
or `shall mean` in the content, or a capitalized phrase longer than 3
characters occurring at least 3 times (at pairwise disjoint positions) in
the content. -/
theorem extractKeyTerms_spec (content : List Char) :
    (extractKeyTerms content).Nodup ∧
    (extractKeyTerms content).length ≤ 20 ∧
    ∀ t ∈ extractKeyTerms content,
      quotedDefinedTerm t content ∨
      (capPhraseShape t = true ∧ 3 < t.length ∧ OccursSeq t 3 content) := by
  refine ⟨?_, ?_, ?_⟩
  · exact (List.take_sublist _ _).nodup (dedupFirst_nodup _)
  · exact List.length_take_le 20 _
  · intro t ht
    have ht1 : t ∈ dedupFirst (definedTerms content ++ repeatedTerms content) :=
      List.mem_of_mem_take ht
    rcases List.mem_append.mp (dedupFirst_mem ht1) with hd | hr
    · left
      rcases definedTermsGo_spec content.length content t hd with
        ⟨ht1', ht2', pre, ws, lit, post, hws1, hws2, hlit, heq⟩
      exact ⟨ht1', ht2', pre, ws, lit, post, hws1, hws2, hlit, heq⟩
    · right
      rw [repeatedTerms] at hr
      rcases List.mem_filter.mp hr with ⟨hmem0, hcount⟩
      rcases List.mem_filter.mp (dedupFirst_mem hmem0) with ⟨hmemC, hlen⟩
      refine ⟨(capMatchesGo_spec content.length false content).1 t hmemC,
        by simpa using hlen, ?_⟩
      have hcount2 : 3 ≤ ((capMatches content).filter
          fun u => 3 < u.length).count t := by
        simpa using hcount
      have hcount3 : 3 ≤ (capMatches content).count t :=
        le_trans hcount2 ((List.filter_sublist _).count_le t)
      exact interleaves_count_occursSeq (capMatches content) content 3
        (capMatchesGo_spec content.length false content).2 hcount3

/-- C10 witness. -/
theorem extractKeyTerms_spec_witness :
    (extractKeyTerms ['"', 'T', 'e', 'r', 'm', '"', ' ', 'm', 'e', 'a',
      'n', 's']).Nodup ∧
    (quotedDefinedTerm ['T', 'e', 'r', 'm']
      ['"', 'T', 'e', 'r', 'm', '"', ' ', 'm', 'e', 'a', 'n', 's'] ∨
      (capPhraseShape ['T', 'e', 'r', 'm'] = true ∧
        3 < (['T', 'e', 'r', 'm'] : List Char).length ∧
        OccursSeq ['T', 'e', 'r', 'm'] 3
          ['"', 'T', 'e', 'r', 'm', '"', ' ', 'm', 'e', 'a', 'n', 's'])) := by
  have h := extractKeyTerms_spec
    ['"', 'T', 'e', 'r', 'm', '"', ' ', 'm', 'e', 'a', 'n', 's']
  exact ⟨h.1, h.2.2 ['T', 'e', 'r', 'm'] (by decide)⟩
